import Mathlib

/-!
A verification development for the sosistab2 reliable-stream multiplexer core
(`src/multiplex/stream.rs`, `src/multiplex/stream/inflight/inflight_struct.rs`,
`src/multiplex/stream/congestion.rs`).

Conventions of the shallow embedding:
* `Instant` and `Duration` are modelled as `Nat`, counted in nanoseconds;
  every place the Rust code calls `Instant::now()` the embedding takes an
  explicit `now : Nat` argument.
* `Bytes` / byte buffers (`VecDeque<u8>`) are modelled as `List Nat`.
* `u64`/`u16` values are modelled as `Nat`; no code path performs deliberate
  modular arithmetic on them.
* Rust panics (`assert!`, `expect`) are modelled by returning `Option`,
  with `none` standing for the panic.
* The `async` suspension machinery is modelled in poll style: an operation on
  the shared queues is a pure function of the queue state that either returns
  `Poll.pending` (the future suspends) or `Poll.ready` together with its
  result and the updated queue state.
-/

namespace Sosistab2

/-- Result of polling a future once: either ready with a value, or pending. -/
inductive Poll (α : Type) : Type
  | ready (a : α) : Poll α
  | pending : Poll α
deriving DecidableEq

/-- Modelled from the spec: the `RelKind` enum lives in `pipe_pool.rs`, which is
not among the sources; §3 of the spec fixes its five variants. -/
inductive RelKind : Type
  | Syn
  | SynAck
  | Data
  | DataAck
  | Rst
deriving DecidableEq

/-- Modelled from the spec: the `Message` enum lives in `pipe_pool.rs`, which is
not among the sources; §3 of the spec fixes its two variants and their fields. -/
inductive Message : Type
  | Rel (kind : RelKind) (stream_id : Nat) (seqno : Nat) (payload : List Nat)
  | Urel (stream_id : Nat) (payload : List Nat)
deriving DecidableEq

/-- Modelled from the spec: the `seqno` accessor of `Message` (used by
`Inflight::insert`) lives in `pipe_pool.rs`; a `seqno` only exists for `Rel`
messages, and the accessor is only ever called on `Data` messages. -/
def Message.seqno : Message → Nat
  | .Rel _ _ s _ => s
  | .Urel _ _ => 0

/-- The four queues and two flags shared between a stream state and its
handles (`StreamQueues` in `stream.rs`).  The Rust struct holds only the two
byte queues and the two booleans; there are no unreliable-datagram queues. -/
structure StreamQueues where
  read_stream : List Nat
  write_stream : List Nat
  connected : Bool
  closed : Bool
deriving DecidableEq

/-- `StreamQueues::default()`: empty queues, both flags false. -/
def StreamQueues.default : StreamQueues :=
  { read_stream := [], write_stream := [], connected := false, closed := false }

/-- The readiness predicate of `Stream::poll_read`: the wrapped
`wait_until` closure fires when `read_stream` is nonempty or `closed` is set. -/
def readReady (q : StreamQueues) : Bool :=
  !q.read_stream.isEmpty || q.closed

/-- `Stream::poll_read` on the queue state: when ready, reads up to `bufLen`
bytes from the front of `read_stream` (the `Read` impl of `VecDeque<u8>`)
and returns them; otherwise pending. -/
def pollRead (q : StreamQueues) (bufLen : Nat) : Poll (List Nat) × StreamQueues :=
  if readReady q then
    (.ready (q.read_stream.take bufLen), { q with read_stream := q.read_stream.drop bufLen })
  else
    (.pending, q)

/-- The readiness predicate of `Stream::poll_write`: the wrapped `wait_until`
closure fires when at most 1 MB is waiting to be written.  Note the constant
in the source is `1_000_000`, and the `closed` flag is not consulted. -/
def writeReady (q : StreamQueues) : Bool :=
  q.write_stream.length ≤ 1000000

/-- `Stream::poll_write` on the queue state: when ready, appends all of `buf`
to `write_stream` (the `Write` impl of `VecDeque<u8>` accepts every byte)
and returns the byte count; otherwise pending. -/
def pollWrite (q : StreamQueues) (buf : List Nat) : Poll Nat × StreamQueues :=
  if writeReady q then
    (.ready buf.length, { q with write_stream := q.write_stream ++ buf })
  else
    (.pending, q)

/-- `Stream::poll_close` / `Stream::shutdown`: sets `closed`. -/
def pollClose (q : StreamQueues) : Poll Unit × StreamQueues :=
  (.ready (), { q with closed := true })

/-- `Stream::send_urel`: the body is `smol::future::pending().await`, so the
future never resolves, whatever the queue state and datagram. -/
def sendUrelPoll (_q : StreamQueues) (_dgram : List Nat) : Poll Unit :=
  .pending

/-- `Stream::recv_urel`: the body is `smol::future::pending().await`, so the
future never resolves, whatever the queue state. -/
def recvUrelPoll (_q : StreamQueues) : Poll (List Nat) :=
  .pending

/-- The readiness predicate of `Stream::wait_connected`: fires when
`connected` is set. -/
def waitConnectedReady (q : StreamQueues) : Bool :=
  q.connected

/-!
Ordered association lists stand in for `BTreeMap`.  The maps of the source
are represented as lists of key-value pairs whose keys are strictly
increasing; the operations below assume, but do not require, that shape, and
well-formedness is carried separately as an invariant.
-/

/-- Lookup (`BTreeMap::get`): the value at the first matching key. -/
def alookup {α : Type} : List (Nat × α) → Nat → Option α
  | [], _ => none
  | (k, v) :: rest, key => if k = key then some v else alookup rest key

/-- Order-preserving insert-or-replace (`BTreeMap::insert`). -/
def ainsert {α : Type} (key : Nat) (v : α) : List (Nat × α) → List (Nat × α)
  | [] => [(key, v)]
  | (k, w) :: rest =>
    if key < k then (key, v) :: (k, w) :: rest
    else if key = k then (key, v) :: rest
    else (k, w) :: ainsert key v rest

/-- Removal (`BTreeMap::remove`): deletes the first pair with the given key. -/
def aerase {α : Type} : List (Nat × α) → Nat → List (Nat × α)
  | [], _ => []
  | (k, v) :: rest, key => if k = key then rest else (k, v) :: aerase rest key

/-- In-place update of the value at a key (`BTreeMap::get_mut` followed by
mutation); keys and order are untouched. -/
def amodify {α : Type} (key : Nat) (f : α → α) : List (Nat × α) → List (Nat × α)
  | [] => []
  | (k, v) :: rest => if k = key then (k, f v) :: rest else (k, v) :: amodify key f rest

/-- Strictly increasing keys: the well-formedness of a `BTreeMap` model. -/
def sortedKeys {α : Type} (l : List (Nat × α)) : Prop :=
  List.Pairwise (fun a b => a.1 < b.1) l

/-- Modelled from the spec: `Reorderer` lives in `pipe_pool.rs`, which is not
among the sources.  Per §4.1 it is a seqno-to-payload mapping with a
`next_expected` cursor (called `min` here, following §3's `StreamState`
naming), a capacity cap of 1024 entries, and duplicate or below-cursor
inserts discarded. -/
structure Reorderer where
  pkts : List (Nat × List Nat)
  min : Nat
deriving DecidableEq

/-- The default (empty) reorderer with cursor 0. -/
def Reorderer.default : Reorderer :=
  { pkts := [], min := 0 }

/-- Modelled from the spec (§4.1): `insert(seqno, payload)` stores the payload
under `seqno` and reports whether this was a new insertion; seqnos below the
cursor, duplicates, and inserts beyond the 1024-entry cap are dropped. -/
def Reorderer.insert (r : Reorderer) (seqno : Nat) (payload : List Nat) : Bool × Reorderer :=
  if seqno < r.min then (false, r)
  else if (alookup r.pkts seqno).isSome then (false, r)
  else if 1024 ≤ r.pkts.length then (false, r)
  else (true, { r with pkts := ainsert seqno payload r.pkts })

/-- The drain loop of `Reorderer::take`, with fuel; each step that finds the
cursor's seqno removes one stored entry, so `pkts.length` fuel suffices. -/
def Reorderer.takeGo : Nat → Reorderer → List (Nat × List Nat) × Reorderer
  | 0, r => ([], r)
  | fuel + 1, r =>
    match alookup r.pkts r.min with
    | none => ([], r)
    | some p =>
      let r' : Reorderer := { pkts := aerase r.pkts r.min, min := r.min + 1 }
      let rec_result := Reorderer.takeGo fuel r'
      ((r.min, p) :: rec_result.1, rec_result.2)

/-- Modelled from the spec (§4.1): `take()` returns the contiguous run of
payloads starting at the cursor and advances the cursor past them. -/
def Reorderer.take (r : Reorderer) : List (Nat × List Nat) × Reorderer :=
  Reorderer.takeGo r.pkts.length r

/-- Modelled from the spec: `RttCalculator` lives in `inflight/calc.rs`, which
is not among the sources.  Per §4.2 it keeps the minimum RTT, a smoothed RTT
and its variance by the standard EWMA, and reports an RTO of
`srtt + 4 * rttvar` floored at 10 ms and capped at 1 s (nanoseconds here). -/
structure RttCalculator where
  min_rtt : Nat
  srtt : Nat
  rttvar : Nat
deriving DecidableEq

/-- Modelled from the spec: the default calculator before any sample. -/
def RttCalculator.default : RttCalculator :=
  { min_rtt := 1000000000, srtt := 0, rttvar := 0 }

/-- Modelled from the spec (§4.2): record one RTT sample by EWMA. -/
def RttCalculator.record_sample (r : RttCalculator) (sample : Nat) : RttCalculator :=
  { min_rtt := Nat.min r.min_rtt sample
    srtt := (7 * r.srtt + sample) / 8
    rttvar := (3 * r.rttvar + (if sample ≤ r.srtt then r.srtt - sample else sample - r.srtt)) / 4 }

/-- Modelled from the spec (§4.2): `rto = srtt + 4 * rttvar`, floored at 10 ms
and capped at 1 s. -/
def RttCalculator.rto (r : RttCalculator) : Nat :=
  Nat.min (Nat.max (r.srtt + 4 * r.rttvar) 10000000) 1000000000

/-- Modelled from the spec: `BwCalculator` lives in `inflight/calc.rs`, which
is not among the sources.  Per §4.2 it keeps a running `delivered` count and
the wall clock of the last ack; only these two observable fields feed the
inflight entries, and no claim depends on the rate estimate itself. -/
structure BwCalculator where
  delivered : Nat
  delivered_time : Nat
deriving DecidableEq

/-- Modelled from the spec: the default calculator. -/
def BwCalculator.default : BwCalculator :=
  { delivered := 0, delivered_time := 0 }

/-- Modelled from the spec (§4.2): on each ack the delivered count advances
and the delivered clock moves to now. -/
def BwCalculator.on_ack (bw : BwCalculator) (now : Nat) : BwCalculator :=
  { delivered := bw.delivered + 1, delivered_time := now }

/-- An element of `Inflight` (`InflightEntry` in `inflight_struct.rs`). -/
structure InflightEntry where
  seqno : Nat
  send_time : Nat
  retrans : Nat
  payload : Message
  retrans_time : Nat
  delivered : Nat
  delivered_time : Nat
  known_lost : Bool
deriving DecidableEq

/-- The in-flight tracker (`Inflight` in `inflight_struct.rs`): segments keyed
by seqno, the RTO index keyed by retransmission time, the two calculators and
the sent/retransmitted counters. -/
structure Inflight where
  segments : List (Nat × InflightEntry)
  rtos : List (Nat × List Nat)
  rtt : RttCalculator
  bw : BwCalculator
  sent : Nat
  retrans : Nat
deriving DecidableEq

/-- `Inflight::new`. -/
def Inflight.new : Inflight :=
  { segments := [], rtos := [], rtt := RttCalculator.default, bw := BwCalculator.default
    sent := 0, retrans := 0 }

/-- `Inflight::unacked`. -/
def Inflight.unacked (fl : Inflight) : Nat :=
  fl.segments.length

/-- `Inflight::last_minus_first`: distance between the largest and smallest
live seqno (0 for the empty map). -/
def Inflight.last_minus_first (fl : Inflight) : Nat :=
  ((fl.segments.getLast?.map Prod.fst).getD 0) - ((fl.segments.head?.map Prod.fst).getD 0)

/-- `Inflight::remove_rto`: drop one seqno from the RTO-index entry at
`retrans_time`, removing the entry when its seqno list becomes empty. -/
def remove_rto (rtos : List (Nat × List Nat)) (retrans_time seqno : Nat) :
    List (Nat × List Nat) :=
  match alookup rtos retrans_time with
  | none => rtos
  | some l =>
    let l' := l.filter (fun v => v ≠ seqno)
    if l'.isEmpty then aerase rtos retrans_time else ainsert retrans_time l' rtos

/-- `self.rtos.entry(t).or_default().push(seqno)`: append a seqno to the
RTO-index entry at `t`, creating the entry when absent. -/
def rtoPush (rtos : List (Nat × List Nat)) (t seqno : Nat) : List (Nat × List Nat) :=
  ainsert t ((alookup rtos t).getD [] ++ [seqno]) rtos

/-- `Inflight::mark_acked`: remove the segment when present, record an RTT
sample when it was never retransmitted, feed the bandwidth estimator, and
drop its RTO-index membership.  Returns whether the segment was present. -/
def Inflight.mark_acked (fl : Inflight) (now : Nat) (acked_seqno : Nat) : Bool × Inflight :=
  match alookup fl.segments acked_seqno with
  | none => (false, fl)
  | some acked_seg =>
    (true,
      { fl with
        segments := aerase fl.segments acked_seqno
        rtt :=
          if acked_seg.retrans = 0 then
            fl.rtt.record_sample (now - acked_seg.send_time)
          else fl.rtt
        bw := fl.bw.on_ack now
        rtos := remove_rto fl.rtos acked_seg.retrans_time acked_seqno })

/-- `Inflight::mark_acked_lt`: ack every segment with key below `seqno`.
`BTreeMap` iterates in ascending key order and the Rust loop breaks at the
first key at or above `seqno`, which on the sorted representation is
`takeWhile`.  Returns the number of newly acked segments. -/
def Inflight.mark_acked_lt (fl : Inflight) (now : Nat) (seqno : Nat) : Nat × Inflight :=
  let to_remove := (fl.segments.map Prod.fst).takeWhile (fun k => k < seqno)
  to_remove.foldl
    (fun (acc : Nat × Inflight) s =>
      let step := acc.2.mark_acked now s
      (acc.1 + (if step.1 then 1 else 0), step.2))
    (0, fl)

/-- `Inflight::insert`: requires the seqno to be absent (`assert!` modelled as
`none`), stamps the entry with send time `now` and retransmission time
`now + rto`, snapshots the bandwidth estimator, indexes the RTO, and bumps
`sent`. -/
def Inflight.insert (fl : Inflight) (now : Nat) (msg : Message) : Option Inflight :=
  let seqno := msg.seqno
  let rto := now + fl.rtt.rto
  if (alookup fl.segments seqno).isSome then
    none
  else
    some { fl with
      segments := ainsert seqno
        { seqno := seqno, send_time := now, retrans := 0, payload := msg
          retrans_time := rto, delivered := fl.bw.delivered
          delivered_time := fl.bw.delivered_time, known_lost := false } fl.segments
      rtos := rtoPush fl.rtos rto seqno
      sent := fl.sent + 1 }

/-- `Inflight::first_rto`: the earliest pair of the RTO index.  The Rust code
indexes the seqno vector with `[0]`; `headD 0` stands for that access, and the
index invariant proves the vector is never empty. -/
def Inflight.first_rto (fl : Inflight) : Option (Nat × Nat) :=
  fl.rtos.head?.map (fun p => (p.2.headD 0, p.1))

/-- The per-entry mutation of `Inflight::retransmit`: bump the retransmission
count, move the RTO deadline, clear `known_lost`. -/
def InflightEntry.retransmitted (e : InflightEntry) (new_retrans : Nat) : InflightEntry :=
  { e with retrans := e.retrans + 1, retrans_time := new_retrans, known_lost := false }

/-- `Inflight::retransmit`: when the seqno is present, bump its retransmission
count, reschedule its RTO to `now + rto * min(2^retrans, 60)`, clear
`known_lost`, reindex, bump the counters and return the stored payload. -/
def Inflight.retransmit (fl : Inflight) (now : Nat) (seqno : Nat) :
    Option (Message × Inflight) :=
  let rto := fl.rtt.rto
  match alookup fl.segments seqno with
  | none => none
  | some entry =>
    let old_retrans := entry.retrans_time
    let new_retrans := now + rto * Nat.min (2 ^ (entry.retrans + 1)) 60
    let segments := amodify seqno (fun e => e.retransmitted new_retrans) fl.segments
    let rtos := rtoPush (remove_rto fl.rtos old_retrans seqno) new_retrans seqno
    some (entry.payload,
      { fl with segments := segments, rtos := rtos
                sent := fl.sent + 1, retrans := fl.retrans + 1 })

/-- `Inflight::mark_lost`: set `known_lost` and drop the RTO-index membership
without removing the segment.  Returns whether the segment was present. -/
def Inflight.mark_lost (fl : Inflight) (seqno : Nat) : Bool × Inflight :=
  match alookup fl.segments seqno with
  | none => (false, fl)
  | some seg =>
    (true,
      { fl with
        segments := amodify seqno (fun e => { e with known_lost := true }) fl.segments
        rtos := remove_rto fl.rtos seg.retrans_time seqno })

/-- Modelled from the spec: the `Highspeed` congestion controller lives in
`congestion/highspeed.rs`, which is not among the sources.  Per §4.3 the
HighSpeed-style AIMD window starts at the constructor argument; on ack
`cwnd` grows by `min(1, 32/cwnd)`, on loss it shrinks to
`max(1, cwnd * 0.7)`.  Rationals stand for the floating-point window. -/
structure Highspeed where
  cwnd : ℚ
deriving DecidableEq

/-- Modelled from the spec: `Highspeed::new`. -/
def Highspeed.new (n : Nat) : Highspeed :=
  { cwnd := n }

/-- Modelled from the spec: the `cwnd()` accessor, truncated to packets. -/
def Highspeed.cwndFloor (h : Highspeed) : Nat :=
  h.cwnd.floor.toNat

/-- Modelled from the spec: `Highspeed::mark_ack`. -/
def Highspeed.mark_ack (h : Highspeed) : Highspeed :=
  { cwnd := h.cwnd + min 1 (32 / h.cwnd) }

/-- Modelled from the spec: `Highspeed::mark_loss`. -/
def Highspeed.mark_loss (h : Highspeed) : Highspeed :=
  { cwnd := max 1 (h.cwnd * (7 / 10)) }

/-- The per-stream phase (`Phase` in `stream.rs`). -/
inductive Phase : Type
  | Pending
  | SynSent (next_resend : Nat)
  | Established
  | Closed
deriving DecidableEq

/-- `MSS` from `stream.rs`. -/
def MSS : Nat := 1000

/-- Stands for the `stdcode` encoding of the empty selective-ack list
(`Vec::<u64>::new().stdcode()`).  Modelled from the spec: the wire codec is an
external collaborator (§1, §6); no claim inspects this payload. -/
def emptySackPayload : List Nat := [0]

/-- The per-stream driver (`StreamState` in `stream.rs`).  The
`Arc<Mutex<StreamQueues>>` shared with the handle is carried inline, and the
`ready` notification event is a no-op in the pure model. -/
structure StreamState where
  phase : Phase
  stream_id : Nat
  additional_data : List Nat
  incoming_queue : List Message
  queues : StreamQueues
  read_until : Nat
  reorderer : Reorderer
  inflight : Inflight
  next_write_seqno : Nat
  congestion : Highspeed
deriving DecidableEq

/-- `StreamState::new_in_phase`: fresh queues, empty incoming queue, zeroed
counters and a Highspeed controller with initial window 1. -/
def StreamState.new_in_phase (stream_id : Nat) (phase : Phase)
    (additional_data : List Nat) : StreamState :=
  { phase := phase, stream_id := stream_id, additional_data := additional_data
    incoming_queue := [], queues := StreamQueues.default, read_until := 0
    reorderer := Reorderer.default, inflight := Inflight.new
    next_write_seqno := 0, congestion := Highspeed.new 1 }

/-- `StreamState::new_pending`. -/
def StreamState.new_pending (stream_id : Nat) (additional_data : List Nat) : StreamState :=
  StreamState.new_in_phase stream_id Phase.Pending additional_data

/-- `StreamState::new_established`. -/
def StreamState.new_established (stream_id : Nat) (additional_data : List Nat) : StreamState :=
  StreamState.new_in_phase stream_id Phase.Established additional_data

/-- `StreamState::inject_incoming`. -/
def StreamState.inject_incoming (st : StreamState) (msg : Message) : StreamState :=
  { st with incoming_queue := st.incoming_queue ++ [msg] }

/-- One iteration of the drain loop in `StreamState::tick_read`: when more
than 1 MB of received bytes awaits the reader the packet is skipped outright;
otherwise `Data` feeds the reorderer (setting the ack flag), `DataAck`
cumulatively acks the inflight and drives the congestion controller once per
newly acked packet, `Syn` echoes a `SynAck`, `Rst` closes the phase, and
anything else (including `SynAck` and `Urel`) is only logged. -/
def tickReadStep (now : Nat) (acc : StreamState × Bool × List Message) (packet : Message) :
    StreamState × Bool × List Message :=
  let st := acc.1
  let gen_ack := acc.2.1
  let out := acc.2.2
  if 1000000 < st.queues.read_stream.length then
    (st, gen_ack, out)
  else
    match packet with
    | .Rel .Data _ seqno payload =>
      let ins := st.reorderer.insert seqno payload
      ({ st with reorderer := ins.2 }, true, out)
    | .Rel .DataAck _ acked_seqno _ =>
      let acked := st.inflight.mark_acked_lt now acked_seqno
      ({ st with inflight := acked.2,
                 congestion := Highspeed.mark_ack^[acked.1] st.congestion }, gen_ack, out)
    | .Rel .Syn sid seqno payload =>
      (st, gen_ack, out ++ [Message.Rel .SynAck sid seqno payload])
    | .Rel .Rst _ _ _ =>
      ({ st with phase := Phase.Closed }, gen_ack, out)
    | .Rel .SynAck _ _ _ => (st, gen_ack, out)
    | .Urel _ _ => (st, gen_ack, out)

/-- One iteration of the reorderer-drain loop in `StreamState::tick_read`:
advance `read_until` to the drained seqno and append the payload to
`read_stream` (`write_all` on a `VecDeque` accepts every byte). -/
def drainStep (s : StreamState) (p : Nat × List Nat) : StreamState :=
  { s with read_until := Nat.max s.read_until p.1
           queues := { s.queues with read_stream := s.queues.read_stream ++ p.2 } }

/-- `StreamState::tick_read`: drain the incoming queue through
`tickReadStep`, then drain the reorderer into `read_stream` while advancing
`read_until`, then, when any `Data` arrived, emit a cumulative `DataAck`
whose seqno field is `read_until`. -/
def StreamState.tick_read (st : StreamState) (now : Nat) : StreamState × List Message :=
  let start : StreamState × Bool × List Message :=
    ({ st with incoming_queue := [] }, false, [])
  let looped := st.incoming_queue.foldl (tickReadStep now) start
  let st1 := looped.1
  let gen_ack := looped.2.1
  let out := looped.2.2
  let taken := st1.reorderer.take
  let st2 := taken.1.foldl drainStep { st1 with reorderer := taken.2 }
  if gen_ack then
    (st2, out ++ [Message.Rel .DataAck st2.stream_id st2.read_until emptySackPayload])
  else
    (st2, out)

/-- The window-filling loop of `StreamState::tick_write`: while the inflight
span is below the window and `write_stream` is nonempty, pop up to `MSS`
bytes, stamp them with `next_write_seqno` (then increment it), transmit the
`Data` message and insert a copy into the inflight.  Each iteration consumes
at least one byte, so fuel `write_stream.length + 1` makes the fuelled loop
agree with the Rust `while`; a failing insert assertion surfaces as `none`. -/
def StreamState.fill_loop (now cwnd : Nat) :
    Nat → StreamState → Option (StreamState × List Message)
  | 0, st => some (st, [])
  | fuel + 1, st =>
    if st.inflight.last_minus_first < cwnd then
      if st.queues.write_stream.isEmpty then some (st, [])
      else
        let buffer := st.queues.write_stream.take MSS
        let seqno := st.next_write_seqno
        let msg : Message := .Rel .Data st.stream_id seqno buffer
        match st.inflight.insert now msg with
        | none => none
        | some fl =>
          let st' := { st with
            queues := { st.queues with write_stream := st.queues.write_stream.drop MSS }
            next_write_seqno := seqno + 1
            inflight := fl }
          match StreamState.fill_loop now cwnd fuel st' with
          | none => none
          | some res => some (res.1, msg :: res.2)
    else some (st, [])

/-- Total seqno count of the RTO index: the fuel of the retransmission loop. -/
def rtoCount (rtos : List (Nat × List Nat)) : Nat :=
  (rtos.map (fun p => p.2.length)).sum

/-- The retransmission loop of `StreamState::tick_write`: while the earliest
RTO deadline has passed, mark a congestion loss when the window had not
already contracted below the inflight span, then retransmit that seqno.  Each
iteration under the index invariant moves one overdue index entry past `now`
(the modelled RTO is at least 10 ms), so `rtoCount` fuel makes the fuelled
loop agree with the Rust `while`; a failing `expect` surfaces as `none`. -/
def StreamState.rto_loop (now : Nat) :
    Nat → StreamState → Option (StreamState × List Message)
  | 0, st => some (st, [])
  | fuel + 1, st =>
    match st.inflight.first_rto with
    | none => some (st, [])
    | some sr =>
      if sr.2 ≤ now then
        let st1 :=
          if st.inflight.last_minus_first ≤ st.congestion.cwndFloor then
            { st with congestion := st.congestion.mark_loss }
          else st
        match st1.inflight.retransmit now sr.1 with
        | none => none
        | some mfl =>
          match StreamState.rto_loop now fuel { st1 with inflight := mfl.2 } with
          | none => none
          | some res => some (res.1, mfl.1 :: res.2)
      else some (st, [])

/-- `StreamState::tick_write`: fill the congestion window from
`write_stream`, then service overdue RTOs. -/
def StreamState.tick_write (st : StreamState) (now : Nat) :
    Option (StreamState × List Message) :=
  let cwnd := st.congestion.cwndFloor
  match StreamState.fill_loop now cwnd (st.queues.write_stream.length + 1) st with
  | none => none
  | some r1 =>
    match StreamState.rto_loop now (rtoCount r1.1.inflight.rtos) r1.1 with
    | none => none
    | some r2 => some (r2.1, r1.2 ++ r2.2)

/-- `StreamState::retick_time`: the earliest RTO deadline, or a long idle
deadline of `now + 1000 s`. -/
def StreamState.retick_time (st : StreamState) (now : Nat) : Nat :=
  match st.inflight.first_rto with
  | some sr => sr.2
  | none => now + 1000000000000

/-- The `matches!(msg, Message::Rel { kind: RelKind::SynAck, .. })` test of
the `SynSent` tick arm. -/
def isSynAck : Message → Bool
  | .Rel .SynAck _ _ _ => true
  | _ => false

/-- `StreamState::tick`: the phase-indexed driver.  `Pending` sends a `Syn`
and arms a 1 s resend timer; `SynSent` drains the entire incoming queue,
establishing (and setting `connected`) when any `SynAck` is found and
otherwise resending the `Syn` once the timer expires; `Established` runs the
read half then the write half and dies when `closed`; `Closed` re-asserts
`closed` and answers every drained message with an `Rst`.  Returns the
updated state, the emitted messages and the next tick deadline; `none` stands
for a Rust panic. -/
def StreamState.tick (st : StreamState) (now : Nat) :
    Option (StreamState × List Message × Nat) :=
  match st.phase with
  | .Pending =>
    let msg : Message := .Rel .Syn st.stream_id 0 st.additional_data
    let next_resend := now + 1000000000
    some ({ st with phase := .SynSent next_resend }, [msg], next_resend)
  | .SynSent next_resend =>
    let drained := st.incoming_queue
    let st0 := { st with incoming_queue := [] }
    if drained.any isSynAck then
      some ({ st0 with phase := .Established
                       queues := { st0.queues with connected := true } }, [], now)
    else if next_resend ≤ now then
      let msg : Message := .Rel .Syn st.stream_id 0 st.additional_data
      some ({ st0 with phase := .SynSent (now + 1000000000) }, [msg], now + 1000000000)
    else
      some (st0, [], next_resend)
  | .Established =>
    let read := st.tick_read now
    match read.1.tick_write now with
    | none => none
    | some written =>
      let st2 := written.1
      let st3 := if st2.queues.closed then { st2 with phase := .Closed } else st2
      some (st3, read.2 ++ written.2, st3.retick_time now)
  | .Closed =>
    let stC := { st with queues := { st.queues with closed := true } }
    let msgs := stC.incoming_queue.map
      (fun _ => (Message.Rel .Rst stC.stream_id 0 []))
    some ({ stC with incoming_queue := [] }, msgs, now + 30000000000)

/-!
The CUBIC-style controller of `congestion.rs`.  Its `f64` arithmetic is
modelled over the reals; time is measured in seconds (`as_secs_f64`), and the
two adjacent `Instant::now()` calls inside one method are treated as the same
instant, so `mark_loss` recalculates at elapsed time zero.
-/

noncomputable section

/-- The `Cubic` congestion controller state (`congestion.rs`). -/
structure Cubic where
  cwnd : ℝ
  beta : ℝ
  cee : ℝ
  last_loss : Option ℝ
  cwnd_max : ℝ

/-- `Cubic::new`. -/
def Cubic.new (beta cee : ℝ) : Cubic :=
  { cwnd := 1, beta := beta, cee := cee, last_loss := none, cwnd_max := 10000 }

/-- The `kay` intermediate of `Cubic::recalculate_cwnd`:
`(cwnd_max * (1 - beta) / cee).powf(0.3333)`. -/
def Cubic.kay (c : Cubic) : ℝ :=
  (c.cwnd_max * (1 - c.beta) / c.cee) ^ (0.3333 : ℝ)

/-- The cubic curve of `Cubic::recalculate_cwnd` before the floor at 1:
`cee * (elapsed - kay).powi(3) + cwnd_max`. -/
def Cubic.curve (c : Cubic) (elapsed : ℝ) : ℝ :=
  c.cee * (elapsed - c.kay) ^ (3 : ℕ) + c.cwnd_max

/-- `Cubic::recalculate_cwnd`: when a loss has happened, reset `cwnd` to the
cubic curve at the time elapsed since it, floored at 1. -/
def Cubic.recalculate_cwnd (c : Cubic) (now : ℝ) : Cubic :=
  match c.last_loss with
  | none => c
  | some last_loss => { c with cwnd := max (c.curve (now - last_loss)) 1 }

/-- `Cubic::mark_ack`: raise `cwnd` by `min(1, 32/cwnd)`, recalculate from the
cubic curve, and keep the smaller of the two. -/
def Cubic.mark_ack (c : Cubic) (now : ℝ) : Cubic :=
  let max_cwnd := c.cwnd + min 1 (32 / c.cwnd)
  let c1 := { c with cwnd := max_cwnd }
  let c2 := c1.recalculate_cwnd now
  { c2 with cwnd := min c2.cwnd max_cwnd }

/-- `Cubic::mark_loss`: record the loss instant, remember the window in
`cwnd_max`, and recalculate from the cubic curve. -/
def Cubic.mark_loss (c : Cubic) (now : ℝ) : Cubic :=
  Cubic.recalculate_cwnd { c with last_loss := some now, cwnd_max := c.cwnd } now

/-- The states a `Cubic` controller constructed as `Cubic::new(beta, cee)` can
reach by acks and losses issued at non-decreasing wall-clock times; the time
component carries the current instant. -/
inductive Cubic.Reachable (beta cee : ℝ) : Cubic → ℝ → Prop
  | init : ∀ t : ℝ, Cubic.Reachable beta cee (Cubic.new beta cee) t
  | wait : ∀ {c t} (t' : ℝ), Cubic.Reachable beta cee c t → t ≤ t' →
      Cubic.Reachable beta cee c t'
  | ack : ∀ {c t} (t' : ℝ), Cubic.Reachable beta cee c t → t ≤ t' →
      Cubic.Reachable beta cee (c.mark_ack t') t'
  | loss : ∀ {c t} (t' : ℝ), Cubic.Reachable beta cee c t → t ≤ t' →
      Cubic.Reachable beta cee (c.mark_loss t') t'

/-- The invariant carried by every reachable `Cubic` state at instant `t`:
the window is at least 1, and after a loss it sits below the cubic curve
(floored at 1) evaluated at the time elapsed since that loss. -/
def Cubic.Inv (c : Cubic) (t : ℝ) : Prop :=
  1 ≤ c.cwnd ∧ ∀ ll, c.last_loss = some ll → c.cwnd ≤ max (c.curve (t - ll)) 1

end

/-- A receive buffer one byte past the 1 MB drop threshold, kept behind a
definition so that proofs reason about its length without unfolding it. -/
def megabyteOverflowBuffer : List Nat := List.replicate 1000001 0

/-- Membership of a seqno at a time key of the RTO index. -/
def rtoMem (rtos : List (Nat × List Nat)) (t s : Nat) : Prop :=
  s ∈ ((alookup rtos t).getD [])

/-- Well-formedness of an `Inflight`: both `BTreeMap` models have strictly
increasing keys, and the RTO index is exactly the set of pairs
`(entry.retrans_time, seqno)` over live entries that are not `known_lost`,
with no empty and no duplicated index entries. -/
structure Inflight.WF (fl : Inflight) : Prop where
  seg_sorted : sortedKeys fl.segments
  rto_sorted : sortedKeys fl.rtos
  rto_sound : ∀ t s, rtoMem fl.rtos t s →
    ∃ e, alookup fl.segments s = some e ∧ e.known_lost = false ∧ e.retrans_time = t
  rto_complete : ∀ s e, alookup fl.segments s = some e → e.known_lost = false →
    rtoMem fl.rtos e.retrans_time s
  rto_nonempty : ∀ t l, alookup fl.rtos t = some l → l ≠ []
  rto_nodup : ∀ t, ((alookup fl.rtos t).getD []).Nodup

/-- Every live seqno of the inflight lies below `n` (freshness bound). -/
def Inflight.keysBelow (fl : Inflight) (n : Nat) : Prop :=
  ∀ k ∈ fl.segments.map Prod.fst, k < n

/-- The per-stream well-formedness used by the seqno-monotonicity claim: the
inflight is well-formed and every tracked seqno is below the next one to be
assigned. -/
def StreamState.WFState (st : StreamState) : Prop :=
  st.inflight.WF ∧ st.inflight.keysBelow st.next_write_seqno

/-- The stream states reachable from either constructor by message injection
and (non-panicking) ticks. -/
inductive StreamState.Reachable : StreamState → Prop
  | pending : ∀ stream_id additional_data,
      StreamState.Reachable (StreamState.new_pending stream_id additional_data)
  | established : ∀ stream_id additional_data,
      StreamState.Reachable (StreamState.new_established stream_id additional_data)
  | inject : ∀ {st} (msg : Message), StreamState.Reachable st →
      StreamState.Reachable (st.inject_incoming msg)
  | tick : ∀ {st st' msgs t} (now : Nat), StreamState.Reachable st →
      st.tick now = some (st', msgs, t) → StreamState.Reachable st'

/-!  Helper lemmas. -/

/-- Folding `tickReadStep` over any packets is the identity while more than
1 MB of received bytes awaits the reader: the guard at the top of the drain
loop skips every packet, whatever its kind. -/
theorem foldl_tickReadStep_skip (now : Nat) (msgs : List Message)
    (acc : StreamState × Bool × List Message)
    (h : 1000000 < acc.1.queues.read_stream.length) :
    msgs.foldl (tickReadStep now) acc = acc := by
  induction msgs with
  | nil => rfl
  | cons m rest ih =>
    have hstep : tickReadStep now acc m = acc := by
      simp [tickReadStep, h]
    rw [List.foldl_cons, hstep, ih]

/-- The reorderer-drain fold touches only `read_until`, the reorderer and the
read queue. -/
theorem foldl_drainStep_frame (pkts : List (Nat × List Nat)) (s : StreamState) :
    (pkts.foldl drainStep s).inflight = s.inflight
    ∧ (pkts.foldl drainStep s).congestion = s.congestion
    ∧ (pkts.foldl drainStep s).phase = s.phase
    ∧ (pkts.foldl drainStep s).incoming_queue = s.incoming_queue
    ∧ (pkts.foldl drainStep s).next_write_seqno = s.next_write_seqno
    ∧ (pkts.foldl drainStep s).reorderer = s.reorderer := by
  induction pkts generalizing s with
  | nil => exact ⟨rfl, rfl, rfl, rfl, rfl, rfl⟩
  | cons p rest ih =>
    simpa [drainStep] using ih (drainStep s p)

/-!  Association-list lemmas. -/

theorem alookup_eq_none_of_not_mem {α : Type} {l : List (Nat × α)} {key : Nat}
    (h : key ∉ l.map Prod.fst) : alookup l key = none := by
  induction l with
  | nil => rfl
  | cons p rest ih =>
    obtain ⟨k, v⟩ := p
    simp only [List.map_cons, List.mem_cons] at h
    push_neg at h
    simp only [alookup]
    rw [if_neg (fun hk : k = key => h.1 hk.symm)]
    exact ih h.2

theorem alookup_isSome_iff_mem {α : Type} {l : List (Nat × α)} {key : Nat} :
    (alookup l key).isSome ↔ key ∈ l.map Prod.fst := by
  induction l with
  | nil => simp [alookup]
  | cons p rest ih =>
    obtain ⟨k, v⟩ := p
    by_cases hk : k = key
    · subst hk
      simp [alookup]
    · simp only [alookup, if_neg hk, List.map_cons, List.mem_cons, ih]
      constructor
      · exact fun h => Or.inr h
      · rintro (h | h)
        · exact absurd h.symm hk
        · exact h

theorem alookup_mem {α : Type} {l : List (Nat × α)} {key : Nat} {v : α}
    (h : alookup l key = some v) : (key, v) ∈ l := by
  induction l with
  | nil => simp [alookup] at h
  | cons p rest ih =>
    obtain ⟨k, w⟩ := p
    by_cases hk : k = key
    · subst hk
      simp only [alookup, if_true, eq_self_iff_true, Option.some.injEq] at h
      subst h
      exact List.mem_cons_self _ _
    · simp only [alookup, if_neg hk] at h
      exact List.mem_cons_of_mem _ (ih h)

theorem alookup_ainsert_self {α : Type} (key : Nat) (v : α) (l : List (Nat × α)) :
    alookup (ainsert key v l) key = some v := by
  induction l with
  | nil => simp [ainsert, alookup]
  | cons p rest ih =>
    obtain ⟨k, w⟩ := p
    by_cases h1 : key < k
    · simp [ainsert, h1, alookup]
    · by_cases h2 : key = k
      · simp [ainsert, h1, h2, alookup]
      · have hk : ¬ (k = key) := fun hh => h2 hh.symm
        simp [ainsert, h1, h2, alookup, hk, ih]

theorem alookup_ainsert_ne {α : Type} {key key' : Nat} (v : α) (l : List (Nat × α))
    (h : key' ≠ key) : alookup (ainsert key v l) key' = alookup l key' := by
  have hkk : ¬ (key = key') := fun hh => h hh.symm
  induction l with
  | nil => simp [ainsert, alookup, hkk]
  | cons p rest ih =>
    obtain ⟨k, w⟩ := p
    by_cases h1 : key < k
    · simp only [ainsert, if_pos h1, alookup, if_neg hkk]
    · by_cases h2 : key = k
      · subst h2
        simp only [ainsert, if_neg h1, if_true, eq_self_iff_true, alookup, if_neg hkk]
      · simp only [ainsert, if_neg h1, if_neg h2, alookup]
        by_cases h3 : k = key'
        · rw [if_pos h3, if_pos h3]
        · rw [if_neg h3, if_neg h3, ih]

theorem ainsert_cases {α : Type} {key : Nat} {v : α} {l : List (Nat × α)} :
    ∀ b ∈ ainsert key v l, b = (key, v) ∨ b ∈ l := by
  induction l with
  | nil =>
    intro b hb
    simp [ainsert] at hb
    exact Or.inl hb
  | cons p rest ih =>
    obtain ⟨k, w⟩ := p
    intro b hb
    by_cases h1 : key < k
    · simp only [ainsert, if_pos h1, List.mem_cons] at hb
      rcases hb with h | h | h
      · exact Or.inl h
      · exact Or.inr (by simp [h])
      · exact Or.inr (List.mem_cons_of_mem _ h)
    · by_cases h2 : key = k
      · simp only [ainsert, if_neg h1, if_pos h2, List.mem_cons] at hb
        rcases hb with h | h
        · exact Or.inl h
        · exact Or.inr (List.mem_cons_of_mem _ h)
      · simp only [ainsert, if_neg h1, if_neg h2, List.mem_cons] at hb
        rcases hb with h | h
        · exact Or.inr (by simp [h])
        · rcases ih b h with h' | h'
          · exact Or.inl h'
          · exact Or.inr (List.mem_cons_of_mem _ h')

theorem sortedKeys_ainsert {α : Type} {key : Nat} {v : α} {l : List (Nat × α)}
    (h : sortedKeys l) : sortedKeys (ainsert key v l) := by
  induction l with
  | nil => simp [ainsert, sortedKeys]
  | cons p rest ih =>
    obtain ⟨k, w⟩ := p
    rw [sortedKeys, List.pairwise_cons] at h
    obtain ⟨hhead, htail⟩ := h
    by_cases h1 : key < k
    · rw [sortedKeys] at *
      simp only [ainsert, if_pos h1]
      refine List.Pairwise.cons ?_ (List.Pairwise.cons hhead htail)
      intro b hb
      rcases List.mem_cons.mp hb with h | h
      · simpa [h] using h1
      · exact lt_trans h1 (hhead b h)
    · by_cases h2 : key = k
      · subst h2
        rw [sortedKeys] at *
        simp only [ainsert, if_neg h1, if_pos rfl]
        exact List.Pairwise.cons hhead htail
      · have hk : k < key := by omega
        rw [sortedKeys] at *
        simp only [ainsert, if_neg h1, if_neg h2]
        refine List.Pairwise.cons ?_ (ih htail)
        intro b hb
        rcases ainsert_cases b hb with h | h
        · simpa [h] using hk
        · exact hhead b h

theorem aerase_sublist {α : Type} (l : List (Nat × α)) (key : Nat) :
    (aerase l key).Sublist l := by
  induction l with
  | nil => simp [aerase]
  | cons p rest ih =>
    obtain ⟨k, w⟩ := p
    by_cases h : k = key
    · simp only [aerase, if_pos h]
      exact List.sublist_cons_self _ _
    · simp only [aerase, if_neg h]
      exact List.Sublist.cons₂ _ ih

theorem sortedKeys_aerase {α : Type} {l : List (Nat × α)} {key : Nat}
    (h : sortedKeys l) : sortedKeys (aerase l key) :=
  List.Pairwise.sublist (aerase_sublist l key) h

theorem keysNodup_of_sorted {α : Type} {l : List (Nat × α)} (h : sortedKeys l) :
    (l.map Prod.fst).Nodup := by
  show (l.map Prod.fst).Pairwise (fun a b => a ≠ b)
  rw [List.pairwise_map]
  exact h.imp (fun hab => Nat.ne_of_lt hab)

theorem alookup_aerase_ne {α : Type} {l : List (Nat × α)} {key key' : Nat}
    (h : key' ≠ key) : alookup (aerase l key) key' = alookup l key' := by
  induction l with
  | nil => rfl
  | cons p rest ih =>
    obtain ⟨k, w⟩ := p
    by_cases hk : k = key
    · subst hk
      simp only [aerase, if_true, eq_self_iff_true, alookup,
        if_neg (fun hh : k = key' => h hh.symm)]
    · simp only [aerase, if_neg hk, alookup]
      by_cases h3 : k = key'
      · rw [if_pos h3, if_pos h3]
      · rw [if_neg h3, if_neg h3, ih]

theorem alookup_aerase_self {α : Type} {l : List (Nat × α)} {key : Nat}
    (h : (l.map Prod.fst).Nodup) : alookup (aerase l key) key = none := by
  induction l with
  | nil => rfl
  | cons p rest ih =>
    obtain ⟨k, w⟩ := p
    simp only [List.map_cons, List.nodup_cons] at h
    by_cases hk : k = key
    · subst hk
      simp only [aerase, if_pos rfl]
      exact alookup_eq_none_of_not_mem h.1
    · simp only [aerase, if_neg hk, alookup, if_neg hk]
      exact ih h.2

theorem alookup_amodify_self {α : Type} (key : Nat) (f : α → α) (l : List (Nat × α)) :
    alookup (amodify key f l) key = (alookup l key).map f := by
  induction l with
  | nil => rfl
  | cons p rest ih =>
    obtain ⟨k, w⟩ := p
    by_cases hk : k = key
    · simp [amodify, hk, alookup]
    · simp [amodify, hk, alookup, ih]

theorem alookup_amodify_ne {α : Type} {key key' : Nat} (f : α → α) (l : List (Nat × α))
    (h : key' ≠ key) : alookup (amodify key f l) key' = alookup l key' := by
  induction l with
  | nil => rfl
  | cons p rest ih =>
    obtain ⟨k, w⟩ := p
    by_cases hk : k = key
    · subst hk
      simp only [amodify, if_pos rfl, alookup]
      rw [if_neg (fun hh : k = key' => h hh.symm), if_neg (fun hh : k = key' => h hh.symm)]
    · simp only [amodify, if_neg hk, alookup]
      by_cases h3 : k = key'
      · rw [if_pos h3, if_pos h3]
      · rw [if_neg h3, if_neg h3, ih]

theorem amodify_map_fst {α : Type} (key : Nat) (f : α → α) (l : List (Nat × α)) :
    (amodify key f l).map Prod.fst = l.map Prod.fst := by
  induction l with
  | nil => rfl
  | cons p rest ih =>
    obtain ⟨k, w⟩ := p
    by_cases hk : k = key
    · simp [amodify, hk]
    · simp [amodify, hk, ih]

theorem sortedKeys_amodify {α : Type} {key : Nat} {f : α → α} {l : List (Nat × α)}
    (h : sortedKeys l) : sortedKeys (amodify key f l) := by
  induction l with
  | nil => simp [amodify, sortedKeys]
  | cons p rest ih =>
    obtain ⟨k, w⟩ := p
    rw [sortedKeys, List.pairwise_cons] at h
    obtain ⟨hhead, htail⟩ := h
    by_cases hk : k = key
    · rw [sortedKeys]
      simp only [amodify, if_pos hk]
      exact List.Pairwise.cons hhead htail
    · rw [sortedKeys]
      simp only [amodify, if_neg hk]
      refine List.Pairwise.cons ?_ (ih htail)
      intro b hb
      have hb1 : b.1 ∈ (amodify key f rest).map Prod.fst := List.mem_map_of_mem _ hb
      rw [amodify_map_fst] at hb1
      obtain ⟨c, hc, hcb⟩ := List.mem_map.mp hb1
      calc k < c.1 := hhead c hc
        _ = b.1 := hcb

theorem head_key_min {α : Type} {l : List (Nat × α)} {p : Nat × α}
    (hs : sortedKeys l) (hh : l.head? = some p) : ∀ q ∈ l, p.1 ≤ q.1 := by
  cases l with
  | nil => simp at hh
  | cons a rest =>
    simp only [List.head?_cons, Option.some.injEq] at hh
    subst hh
    rw [sortedKeys, List.pairwise_cons] at hs
    intro q hq
    rcases List.mem_cons.mp hq with h | h
    · exact le_of_eq (by rw [h])
    · exact le_of_lt (hs.1 q h)

/-!  RTO-index operation lemmas. -/

theorem rtoMem_remove_rto {m : List (Nat × List Nat)} {t s t' x : Nat}
    (hnd : (m.map Prod.fst).Nodup) :
    rtoMem (remove_rto m t s) t' x ↔ rtoMem m t' x ∧ (t' = t → x ≠ s) := by
  unfold rtoMem remove_rto
  cases hm : alookup m t with
  | none =>
    constructor
    · intro hx
      refine ⟨hx, fun hteq hxs => ?_⟩
      subst hteq
      rw [hm] at hx
      simp at hx
    · exact fun hx => hx.1
  | some l =>
    dsimp only
    by_cases he : (l.filter (fun v => v ≠ s)).isEmpty
    · rw [if_pos he]
      by_cases ht : t' = t
      · subst ht
        rw [alookup_aerase_self hnd, hm]
        rw [List.isEmpty_iff] at he
        simp only [Option.getD_none, Option.getD_some, List.not_mem_nil, false_iff, not_and]
        intro hx hxs
        have hmem : x ∈ l.filter (fun v => v ≠ s) := by
          simp only [List.mem_filter, decide_eq_true_eq]
          exact ⟨hx, hxs (by trivial)⟩
        rw [he] at hmem
        simp at hmem
      · rw [alookup_aerase_ne ht]
        simp [ht]
    · rw [if_neg he]
      by_cases ht : t' = t
      · subst ht
        rw [alookup_ainsert_self, hm]
        simp only [Option.getD_some, List.mem_filter, decide_eq_true_eq]
        constructor
        · rintro ⟨h1, h2⟩
          exact ⟨h1, fun _ => h2⟩
        · rintro ⟨h1, h2⟩
          exact ⟨h1, h2 (by trivial)⟩
      · rw [alookup_ainsert_ne _ _ ht]
        simp [ht]

theorem rtoMem_rtoPush {m : List (Nat × List Nat)} {t s t' x : Nat} :
    rtoMem (rtoPush m t s) t' x ↔ rtoMem m t' x ∨ (t' = t ∧ x = s) := by
  unfold rtoMem rtoPush
  by_cases ht : t' = t
  · subst ht
    rw [alookup_ainsert_self]
    cases hm : alookup m t' with
    | none => simp
    | some l => simp
  · rw [alookup_ainsert_ne _ _ ht]
    simp [ht]

theorem sortedKeys_remove_rto {m : List (Nat × List Nat)} {t s : Nat}
    (h : sortedKeys m) : sortedKeys (remove_rto m t s) := by
  unfold remove_rto
  cases alookup m t with
  | none => exact h
  | some l =>
    dsimp only
    by_cases he : (l.filter (fun v => v ≠ s)).isEmpty
    · rw [if_pos he]
      exact sortedKeys_aerase h
    · rw [if_neg he]
      exact sortedKeys_ainsert h

theorem sortedKeys_rtoPush {m : List (Nat × List Nat)} {t s : Nat}
    (h : sortedKeys m) : sortedKeys (rtoPush m t s) :=
  sortedKeys_ainsert h

theorem remove_rto_nonempty {m : List (Nat × List Nat)} {t₀ s₀ : Nat}
    (hs : sortedKeys m) (h : ∀ t l, alookup m t = some l → l ≠ []) :
    ∀ t l, alookup (remove_rto m t₀ s₀) t = some l → l ≠ [] := by
  intro t l hl
  unfold remove_rto at hl
  cases hm : alookup m t₀ with
  | none =>
    rw [hm] at hl
    exact h t l hl
  | some l₀ =>
    rw [hm] at hl
    dsimp only at hl
    by_cases he : (l₀.filter (fun v => v ≠ s₀)).isEmpty
    · rw [if_pos he] at hl
      by_cases ht : t = t₀
      · subst ht
        rw [alookup_aerase_self (keysNodup_of_sorted hs)] at hl
        exact absurd hl (by simp)
      · rw [alookup_aerase_ne ht] at hl
        exact h t l hl
    · rw [if_neg he] at hl
      by_cases ht : t = t₀
      · subst ht
        rw [alookup_ainsert_self] at hl
        rw [List.isEmpty_iff] at he
        obtain rfl : l₀.filter (fun v => v ≠ s₀) = l := by
          simpa using hl
        exact he
      · rw [alookup_ainsert_ne _ _ ht] at hl
        exact h t l hl

theorem remove_rto_nodup {m : List (Nat × List Nat)} {t₀ s₀ : Nat}
    (hs : sortedKeys m) (h : ∀ t, ((alookup m t).getD []).Nodup) :
    ∀ t, ((alookup (remove_rto m t₀ s₀) t).getD []).Nodup := by
  intro t
  unfold remove_rto
  cases hm : alookup m t₀ with
  | none => exact h t
  | some l₀ =>
    dsimp only
    by_cases he : (l₀.filter (fun v => v ≠ s₀)).isEmpty
    · rw [if_pos he]
      by_cases ht : t = t₀
      · subst ht
        rw [alookup_aerase_self (keysNodup_of_sorted hs)]
        simp
      · rw [alookup_aerase_ne ht]
        exact h t
    · rw [if_neg he]
      by_cases ht : t = t₀
      · subst ht
        rw [alookup_ainsert_self]
        have := h t
        rw [hm] at this
        simpa using List.Nodup.filter _ (by simpa using this)
      · rw [alookup_ainsert_ne _ _ ht]
        exact h t

theorem rtoPush_nonempty {m : List (Nat × List Nat)} {t₀ s₀ : Nat}
    (h : ∀ t l, alookup m t = some l → l ≠ []) :
    ∀ t l, alookup (rtoPush m t₀ s₀) t = some l → l ≠ [] := by
  intro t l hl
  unfold rtoPush at hl
  by_cases ht : t = t₀
  · subst ht
    rw [alookup_ainsert_self] at hl
    obtain rfl : (alookup m t).getD [] ++ [s₀] = l := by simpa using hl
    simp
  · rw [alookup_ainsert_ne _ _ ht] at hl
    exact h t l hl

theorem rtoPush_nodup {m : List (Nat × List Nat)} {t₀ s₀ : Nat}
    (h : ∀ t, ((alookup m t).getD []).Nodup) (hnotin : ¬ rtoMem m t₀ s₀) :
    ∀ t, ((alookup (rtoPush m t₀ s₀) t).getD []).Nodup := by
  intro t
  unfold rtoPush
  by_cases ht : t = t₀
  · subst ht
    rw [alookup_ainsert_self]
    rw [rtoMem] at hnotin
    simp only [Option.getD_some]
    refine List.Nodup.append (h t) (by simp) ?_
    intro a ha hb
    rcases List.mem_singleton.mp hb with rfl
    exact hnotin ha
  · rw [alookup_ainsert_ne _ _ ht]
    exact h t

/-!  Well-formedness of the Inflight operations. -/

theorem Inflight.wf_new : Inflight.new.WF := by
  constructor <;> simp [Inflight.new, sortedKeys, rtoMem, alookup]

theorem Inflight.WF.insert {fl : Inflight} {now : Nat} {msg : Message} {fl' : Inflight}
    (h : fl.WF) (hins : fl.insert now msg = some fl') : fl'.WF := by
  unfold Inflight.insert at hins
  by_cases hfresh : (alookup fl.segments msg.seqno).isSome
  · rw [if_pos hfresh] at hins
    exact absurd hins (by simp)
  · rw [if_neg hfresh] at hins
    have hnone : alookup fl.segments msg.seqno = none :=
      Option.not_isSome_iff_eq_none.mp hfresh
    obtain rfl : _ = fl' := by simpa using hins
    set seqno := msg.seqno with hseq
    set rto := now + fl.rtt.rto with hrto
    have hnotin : ¬ rtoMem fl.rtos rto seqno := by
      intro hmem
      obtain ⟨e, he1, _, _⟩ := h.rto_sound rto seqno hmem
      rw [hnone] at he1
      exact absurd he1 (by simp)
    constructor
    · exact sortedKeys_ainsert h.seg_sorted
    · exact sortedKeys_rtoPush h.rto_sorted
    · intro t s hmem
      rcases rtoMem_rtoPush.mp hmem with hold | ⟨rfl, rfl⟩
      · obtain ⟨e, he1, he2, he3⟩ := h.rto_sound t s hold
        have hne : s ≠ seqno := by
          intro hcontra
          rw [hcontra, hnone] at he1
          exact absurd he1 (by simp)
        refine ⟨e, ?_, he2, he3⟩
        rw [alookup_ainsert_ne _ _ hne]
        exact he1
      · exact ⟨_, alookup_ainsert_self _ _ _, rfl, rfl⟩
    · intro s e hlook hkl
      by_cases hne : s = seqno
      · subst hne
        rw [alookup_ainsert_self] at hlook
        have : e.retrans_time = rto := by
          cases hlook
          rfl
        rw [this]
        exact rtoMem_rtoPush.mpr (Or.inr ⟨rfl, rfl⟩)
      · rw [alookup_ainsert_ne _ _ hne] at hlook
        exact rtoMem_rtoPush.mpr (Or.inl (h.rto_complete s e hlook hkl))
    · intro t l hl
      unfold rtoPush at hl
      by_cases ht : t = rto
      · subst ht
        rw [alookup_ainsert_self] at hl
        obtain rfl : (alookup fl.rtos rto).getD [] ++ [seqno] = l := by simpa using hl
        simp
      · rw [alookup_ainsert_ne _ _ ht] at hl
        exact h.rto_nonempty t l hl
    · exact rtoPush_nodup h.rto_nodup hnotin

theorem Inflight.WF.mark_acked {fl : Inflight} (h : fl.WF) (now s₀ : Nat) :
    (fl.mark_acked now s₀).2.WF := by
  unfold Inflight.mark_acked
  cases hseg : alookup fl.segments s₀ with
  | none => exact h
  | some seg =>
    dsimp only
    have hnodup := keysNodup_of_sorted h.seg_sorted
    have hrtonodup := keysNodup_of_sorted h.rto_sorted
    constructor
    · exact sortedKeys_aerase h.seg_sorted
    · exact sortedKeys_remove_rto h.rto_sorted
    · intro t s hmem
      obtain ⟨hold, himp⟩ := (rtoMem_remove_rto hrtonodup).mp hmem
      obtain ⟨e, he1, he2, he3⟩ := h.rto_sound t s hold
      have hne : s ≠ s₀ := by
        intro hcontra
        subst hcontra
        rw [hseg] at he1
        obtain rfl := Option.some.inj he1
        exact himp he3.symm rfl
      refine ⟨e, ?_, he2, he3⟩
      rw [alookup_aerase_ne hne]
      exact he1
    · intro s e hlook hkl
      have hne : s ≠ s₀ := by
        intro hcontra
        subst hcontra
        rw [alookup_aerase_self hnodup] at hlook
        cases hlook
      rw [alookup_aerase_ne hne] at hlook
      exact (rtoMem_remove_rto hrtonodup).mpr ⟨h.rto_complete s e hlook hkl, fun _ => hne⟩
    · exact remove_rto_nonempty h.rto_sorted h.rto_nonempty
    · exact remove_rto_nodup h.rto_sorted h.rto_nodup

theorem Inflight.WF.mark_lost {fl : Inflight} (h : fl.WF) (s₀ : Nat) :
    (fl.mark_lost s₀).2.WF := by
  unfold Inflight.mark_lost
  cases hseg : alookup fl.segments s₀ with
  | none => exact h
  | some seg =>
    dsimp only
    have hrtonodup := keysNodup_of_sorted h.rto_sorted
    constructor
    · exact sortedKeys_amodify h.seg_sorted
    · exact sortedKeys_remove_rto h.rto_sorted
    · intro t s hmem
      obtain ⟨hold, himp⟩ := (rtoMem_remove_rto hrtonodup).mp hmem
      obtain ⟨e, he1, he2, he3⟩ := h.rto_sound t s hold
      have hne : s ≠ s₀ := by
        intro hcontra
        subst hcontra
        rw [hseg] at he1
        obtain rfl := Option.some.inj he1
        exact himp he3.symm rfl
      refine ⟨e, ?_, he2, he3⟩
      rw [alookup_amodify_ne _ _ hne]
      exact he1
    · intro s e hlook hkl
      by_cases hne : s = s₀
      · subst hne
        rw [alookup_amodify_self, hseg] at hlook
        simp only [Option.map_some'] at hlook
        obtain rfl := Option.some.inj hlook
        simp at hkl
      · rw [alookup_amodify_ne _ _ hne] at hlook
        exact (rtoMem_remove_rto hrtonodup).mpr
          ⟨h.rto_complete s e hlook hkl, fun _ => hne⟩
    · exact remove_rto_nonempty h.rto_sorted h.rto_nonempty
    · exact remove_rto_nodup h.rto_sorted h.rto_nodup

theorem Inflight.WF.retransmit {fl : Inflight} {now s₀ : Nat} {msg : Message}
    {fl' : Inflight} (h : fl.WF) (hr : fl.retransmit now s₀ = some (msg, fl')) :
    fl'.WF := by
  unfold Inflight.retransmit at hr
  cases hseg : alookup fl.segments s₀ with
  | none =>
    rw [hseg] at hr
    cases hr
  | some entry =>
    rw [hseg] at hr
    dsimp only at hr
    injection hr with hr1
    injection hr1 with hmsg hfl
    subst hmsg
    subst hfl
    have hrtonodup := keysNodup_of_sorted h.rto_sorted
    have hm1nodup : ((remove_rto fl.rtos entry.retrans_time s₀).map Prod.fst).Nodup :=
      keysNodup_of_sorted (sortedKeys_remove_rto h.rto_sorted)
    have hnotin :
        ¬ rtoMem (remove_rto fl.rtos entry.retrans_time s₀)
          (now + fl.rtt.rto * Nat.min (2 ^ (entry.retrans + 1)) 60) s₀ := by
      intro hmem
      obtain ⟨hold, himp⟩ := (rtoMem_remove_rto hrtonodup).mp hmem
      obtain ⟨e, he1, he2, he3⟩ := h.rto_sound _ s₀ hold
      rw [hseg] at he1
      obtain rfl := Option.some.inj he1
      exact himp he3.symm rfl
    constructor
    · exact sortedKeys_amodify h.seg_sorted
    · exact sortedKeys_rtoPush (sortedKeys_remove_rto h.rto_sorted)
    · intro t s hmem
      rcases rtoMem_rtoPush.mp hmem with hm1 | ⟨rfl, rfl⟩
      · obtain ⟨hold, himp⟩ := (rtoMem_remove_rto hrtonodup).mp hm1
        obtain ⟨e, he1, he2, he3⟩ := h.rto_sound t s hold
        have hne : s ≠ s₀ := by
          intro hcontra
          subst hcontra
          rw [hseg] at he1
          obtain rfl := Option.some.inj he1
          exact himp he3.symm rfl
        refine ⟨e, ?_, he2, he3⟩
        rw [alookup_amodify_ne _ _ hne]
        exact he1
      · refine ⟨entry.retransmitted
            (now + fl.rtt.rto * Nat.min (2 ^ (entry.retrans + 1)) 60), ?_, rfl, rfl⟩
        rw [alookup_amodify_self, hseg]
        rfl
    · intro s e hlook hkl
      by_cases hne : s = s₀
      · subst hne
        rw [alookup_amodify_self, hseg] at hlook
        simp only [Option.map_some'] at hlook
        obtain rfl := Option.some.inj hlook
        exact rtoMem_rtoPush.mpr (Or.inr ⟨rfl, rfl⟩)
      · rw [alookup_amodify_ne _ _ hne] at hlook
        refine rtoMem_rtoPush.mpr (Or.inl ?_)
        exact (rtoMem_remove_rto hrtonodup).mpr
          ⟨h.rto_complete s e hlook hkl, fun _ => hne⟩
    · exact rtoPush_nonempty (remove_rto_nonempty h.rto_sorted h.rto_nonempty)
    · exact rtoPush_nodup (remove_rto_nodup h.rto_sorted h.rto_nodup) hnotin

theorem foldl_mark_acked_wf (now : Nat) (ks : List Nat) (acc : Nat × Inflight)
    (h : acc.2.WF) :
    (ks.foldl
      (fun (acc : Nat × Inflight) s =>
        let step := acc.2.mark_acked now s
        (acc.1 + (if step.1 then 1 else 0), step.2)) acc).2.WF := by
  induction ks generalizing acc with
  | nil => exact h
  | cons k rest ih => exact ih _ (h.mark_acked now k)

theorem Inflight.WF.mark_acked_lt {fl : Inflight} (h : fl.WF) (now seqno : Nat) :
    (fl.mark_acked_lt now seqno).2.WF := by
  unfold Inflight.mark_acked_lt
  exact foldl_mark_acked_wf now _ (0, fl) h

theorem isSome_of_rtoMem {m : List (Nat × List Nat)} {t x : Nat}
    (h : rtoMem m t x) : (alookup m t).isSome := by
  unfold rtoMem at h
  cases hm : alookup m t with
  | none =>
    rw [hm] at h
    simp at h
  | some l => simp

theorem Inflight.first_rto_none_iff {fl : Inflight} (h : fl.WF) :
    fl.first_rto = none
      ↔ ∀ s e, alookup fl.segments s = some e → e.known_lost = true := by
  unfold Inflight.first_rto
  constructor
  · intro hnone s e hlook
    have hrtos : fl.rtos = [] := by
      cases hr : fl.rtos with
      | nil => rfl
      | cons p rest =>
        rw [hr] at hnone
        simp at hnone
    by_contra hkl
    rw [Bool.not_eq_true] at hkl
    have hmem := h.rto_complete s e hlook hkl
    rw [rtoMem, hrtos] at hmem
    simp [alookup] at hmem
  · intro hall
    cases hr : fl.rtos with
    | nil => simp
    | cons p rest =>
      exfalso
      obtain ⟨t₀, l₀⟩ := p
      have hl₀ : alookup fl.rtos t₀ = some l₀ := by
        rw [hr]
        simp [alookup]
      have hne := h.rto_nonempty t₀ l₀ hl₀
      obtain ⟨x, hx⟩ := List.exists_mem_of_ne_nil l₀ hne
      have hmem : rtoMem fl.rtos t₀ x := by
        rw [rtoMem, hl₀]
        simpa using hx
      obtain ⟨e, he1, he2, _⟩ := h.rto_sound t₀ x hmem
      rw [hall x e he1] at he2
      cases he2

theorem Inflight.first_rto_some {fl : Inflight} {s t : Nat} (h : fl.WF)
    (hf : fl.first_rto = some (s, t)) :
    ∃ e, alookup fl.segments s = some e ∧ e.known_lost = false ∧ e.retrans_time = t
      ∧ ∀ s' e', alookup fl.segments s' = some e' → e'.known_lost = false →
          t ≤ e'.retrans_time := by
  unfold Inflight.first_rto at hf
  cases hr : fl.rtos with
  | nil =>
    rw [hr] at hf
    cases hf
  | cons p rest =>
    obtain ⟨t₀, l₀⟩ := p
    rw [hr] at hf
    simp only [List.head?_cons, Option.map_some'] at hf
    obtain ⟨hs, ht⟩ : l₀.headD 0 = s ∧ t₀ = t := by
      injection hf with hf1
      injection hf1 with h1 h2
      exact ⟨h1, h2⟩
    subst ht
    have hl₀ : alookup fl.rtos t₀ = some l₀ := by
      rw [hr]
      simp [alookup]
    have hne := h.rto_nonempty t₀ l₀ hl₀
    have hsmem : s ∈ l₀ := by
      cases l₀ with
      | nil => exact absurd rfl hne
      | cons a as =>
        rw [List.headD_cons] at hs
        rw [← hs]
        exact List.mem_cons_self _ _
    have hmem : rtoMem fl.rtos t₀ s := by
      rw [rtoMem, hl₀]
      simpa using hsmem
    obtain ⟨e, he1, he2, he3⟩ := h.rto_sound t₀ s hmem
    refine ⟨e, he1, he2, he3, ?_⟩
    intro s' e' hlook' hkl'
    have hmem' := h.rto_complete s' e' hlook' hkl'
    have hsome := isSome_of_rtoMem hmem'
    have hkey : e'.retrans_time ∈ fl.rtos.map Prod.fst :=
      alookup_isSome_iff_mem.mp hsome
    obtain ⟨q, hq, hqe⟩ := List.mem_map.mp hkey
    have hmin : (t₀, l₀).1 ≤ q.1 := by
      refine head_key_min h.rto_sorted ?_ q hq
      rw [hr]
      rfl
    rw [← hqe]
    exact hmin

/-!  Seqno-freshness lemmas. -/

theorem Inflight.mark_acked_keys {fl : Inflight} (now s₀ : Nat) :
    ∀ k ∈ (fl.mark_acked now s₀).2.segments.map Prod.fst, k ∈ fl.segments.map Prod.fst := by
  unfold Inflight.mark_acked
  cases hseg : alookup fl.segments s₀ with
  | none => exact fun k hk => hk
  | some seg =>
    dsimp only
    intro k hk
    exact ((aerase_sublist fl.segments s₀).map Prod.fst).mem hk

theorem foldl_mark_acked_keys (now : Nat) (ks : List Nat) (acc : Nat × Inflight) :
    ∀ k ∈ ((ks.foldl
      (fun (acc : Nat × Inflight) s =>
        let step := acc.2.mark_acked now s
        (acc.1 + (if step.1 then 1 else 0), step.2)) acc)).2.segments.map Prod.fst,
      k ∈ acc.2.segments.map Prod.fst := by
  induction ks generalizing acc with
  | nil => exact fun k hk => hk
  | cons a rest ih =>
    intro k hk
    exact Inflight.mark_acked_keys now a k (ih _ k hk)

theorem Inflight.mark_acked_lt_keys {fl : Inflight} (now seqno : Nat) :
    ∀ k ∈ (fl.mark_acked_lt now seqno).2.segments.map Prod.fst,
      k ∈ fl.segments.map Prod.fst := by
  unfold Inflight.mark_acked_lt
  exact foldl_mark_acked_keys now _ (0, fl)

theorem Inflight.retransmit_keys {fl : Inflight} {now s₀ : Nat} {msg : Message}
    {fl' : Inflight} (hr : fl.retransmit now s₀ = some (msg, fl')) :
    fl'.segments.map Prod.fst = fl.segments.map Prod.fst := by
  unfold Inflight.retransmit at hr
  cases hseg : alookup fl.segments s₀ with
  | none =>
    rw [hseg] at hr
    cases hr
  | some entry =>
    rw [hseg] at hr
    dsimp only at hr
    injection hr with hr1
    injection hr1 with hmsg hfl
    subst hfl
    exact amodify_map_fst _ _ _

theorem Inflight.insert_fresh {fl : Inflight} (now : Nat) {msg : Message}
    (h : alookup fl.segments msg.seqno = none) : (fl.insert now msg).isSome := by
  unfold Inflight.insert
  rw [if_neg (by simp [h])]
  simp

theorem Inflight.insert_keys {fl : Inflight} {now : Nat} {msg : Message} {fl' : Inflight}
    (hins : fl.insert now msg = some fl') :
    ∀ k ∈ fl'.segments.map Prod.fst, k = msg.seqno ∨ k ∈ fl.segments.map Prod.fst := by
  unfold Inflight.insert at hins
  by_cases hfresh : (alookup fl.segments msg.seqno).isSome
  · rw [if_pos hfresh] at hins
    cases hins
  · rw [if_neg hfresh] at hins
    obtain rfl : _ = fl' := by simpa using hins
    intro k hk
    obtain ⟨p, hp, hpk⟩ := List.mem_map.mp hk
    rcases ainsert_cases p hp with rfl | hpold
    · exact Or.inl hpk.symm
    · exact Or.inr (hpk ▸ List.mem_map_of_mem Prod.fst hpold)

theorem keysBelow_insert {fl : Inflight} {now n : Nat} {msg : Message} {fl' : Inflight}
    (hkb : fl.keysBelow n) (hmsg : msg.seqno = n)
    (hins : fl.insert now msg = some fl') : fl'.keysBelow (n + 1) := by
  intro k hk
  rcases Inflight.insert_keys hins k hk with rfl | hold
  · omega
  · exact lt_trans (hkb k hold) (Nat.lt_succ_self n)

theorem keysBelow_fresh {fl : Inflight} {n : Nat} (hkb : fl.keysBelow n) :
    alookup fl.segments n = none := by
  cases hl : alookup fl.segments n with
  | none => rfl
  | some e =>
    have : n ∈ fl.segments.map Prod.fst :=
      alookup_isSome_iff_mem.mp (by simp [hl])
    exact absurd (hkb n this) (lt_irrefl n)

/-!  The write-half loops return results under well-formedness. -/

theorem fill_loop_spec (now cwnd : Nat) :
    ∀ (fuel : Nat) (st : StreamState), st.inflight.WF →
      st.inflight.keysBelow st.next_write_seqno →
      ∃ st' msgs, StreamState.fill_loop now cwnd fuel st = some (st', msgs)
        ∧ st'.inflight.WF
        ∧ st'.inflight.keysBelow st'.next_write_seqno
        ∧ msgs.map Message.seqno = List.range' st.next_write_seqno msgs.length
        ∧ st'.next_write_seqno = st.next_write_seqno + msgs.length := by
  intro fuel
  induction fuel with
  | zero =>
    intro st h1 h2
    exact ⟨st, [], rfl, h1, h2, rfl, rfl⟩
  | succ n ih =>
    intro st h1 h2
    unfold StreamState.fill_loop
    by_cases hc : st.inflight.last_minus_first < cwnd
    · rw [if_pos hc]
      by_cases hw : st.queues.write_stream.isEmpty
      · rw [if_pos hw]
        exact ⟨st, [], rfl, h1, h2, rfl, rfl⟩
      · rw [if_neg hw]
        dsimp only
        have hfresh : alookup st.inflight.segments
            (Message.Rel .Data st.stream_id st.next_write_seqno
              (st.queues.write_stream.take MSS)).seqno = none := keysBelow_fresh h2
        cases hins : st.inflight.insert now
            (Message.Rel .Data st.stream_id st.next_write_seqno
              (st.queues.write_stream.take MSS)) with
        | none =>
          have := Inflight.insert_fresh now hfresh
          rw [hins] at this
          cases this
        | some flN =>
          dsimp only
          have hwfN : flN.WF := h1.insert hins
          have hkbN : flN.keysBelow (st.next_write_seqno + 1) :=
            keysBelow_insert h2
              (show (Message.Rel .Data st.stream_id st.next_write_seqno
                (st.queues.write_stream.take MSS)).seqno = st.next_write_seqno from rfl)
              hins
          obtain ⟨st', msgs, hrec, hwf', hkb', hmap, hnext⟩ :=
            ih { st with
                  queues := { st.queues with
                    write_stream := st.queues.write_stream.drop MSS }
                  next_write_seqno := st.next_write_seqno + 1
                  inflight := flN } hwfN hkbN
          rw [hrec]
          refine ⟨st', Message.Rel .Data st.stream_id st.next_write_seqno
            (st.queues.write_stream.take MSS) :: msgs, rfl, hwf', hkb', ?_, ?_⟩
          · simp only [List.map_cons, List.length_cons, Message.seqno] at hmap ⊢
            rw [List.range'_succ]
            exact congrArg (List.cons st.next_write_seqno) hmap
          · simp only [List.length_cons] at hnext ⊢
            omega
    · rw [if_neg hc]
      exact ⟨st, [], rfl, h1, h2, rfl, rfl⟩

theorem rto_loop_spec (now : Nat) :
    ∀ (fuel : Nat) (st : StreamState), st.inflight.WF →
      st.inflight.keysBelow st.next_write_seqno →
      ∃ st' msgs, StreamState.rto_loop now fuel st = some (st', msgs)
        ∧ st'.inflight.WF
        ∧ st'.inflight.keysBelow st'.next_write_seqno
        ∧ st'.next_write_seqno = st.next_write_seqno := by
  intro fuel
  induction fuel with
  | zero =>
    intro st h1 h2
    exact ⟨st, [], rfl, h1, h2, rfl⟩
  | succ n ih =>
    intro st h1 h2
    unfold StreamState.rto_loop
    cases hf : st.inflight.first_rto with
    | none => exact ⟨st, [], rfl, h1, h2, rfl⟩
    | some sr =>
      obtain ⟨s₁, t₁⟩ := sr
      show ∃ st' msgs,
        (if t₁ ≤ now then
          let st1 :=
            if st.inflight.last_minus_first ≤ st.congestion.cwndFloor then
              { st with congestion := st.congestion.mark_loss }
            else st
          match st1.inflight.retransmit now s₁ with
          | none => none
          | some mfl =>
            match StreamState.rto_loop now n { st1 with inflight := mfl.2 } with
            | none => none
            | some res => some (res.1, mfl.1 :: res.2)
        else some (st, [])) = some (st', msgs)
        ∧ st'.inflight.WF ∧ st'.inflight.keysBelow st'.next_write_seqno
        ∧ st'.next_write_seqno = st.next_write_seqno
      by_cases ht : t₁ ≤ now
      · rw [if_pos ht]
        obtain ⟨e, he1, he2, he3, -⟩ := Inflight.first_rto_some h1 hf
        by_cases hcc : st.inflight.last_minus_first ≤ st.congestion.cwndFloor
        · rw [if_pos hcc]
          dsimp only
          cases hrt : st.inflight.retransmit now s₁ with
          | none =>
            exfalso
            unfold Inflight.retransmit at hrt
            rw [he1] at hrt
            simp at hrt
          | some mfl =>
            dsimp only
            have hwfR : mfl.2.WF := h1.retransmit hrt
            have hkbR : mfl.2.keysBelow st.next_write_seqno := by
              intro k hk
              rw [Inflight.retransmit_keys hrt] at hk
              exact h2 k hk
            obtain ⟨st', msgs, hrec, hwf', hkb', hnext'⟩ :=
              ih { st with congestion := st.congestion.mark_loss, inflight := mfl.2 }
                hwfR hkbR
            rw [hrec]
            exact ⟨st', mfl.1 :: msgs, rfl, hwf', hkb', hnext'⟩
        · rw [if_neg hcc]
          dsimp only
          cases hrt : st.inflight.retransmit now s₁ with
          | none =>
            exfalso
            unfold Inflight.retransmit at hrt
            rw [he1] at hrt
            simp at hrt
          | some mfl =>
            dsimp only
            have hwfR : mfl.2.WF := h1.retransmit hrt
            have hkbR : mfl.2.keysBelow st.next_write_seqno := by
              intro k hk
              rw [Inflight.retransmit_keys hrt] at hk
              exact h2 k hk
            obtain ⟨st', msgs, hrec, hwf', hkb', hnext'⟩ :=
              ih { st with inflight := mfl.2 } hwfR hkbR
            rw [hrec]
            exact ⟨st', mfl.1 :: msgs, rfl, hwf', hkb', hnext'⟩
      · rw [if_neg ht]
        exact ⟨st, [], rfl, h1, h2, rfl⟩

theorem tick_write_spec (st : StreamState) (now : Nat) (h1 : st.inflight.WF)
    (h2 : st.inflight.keysBelow st.next_write_seqno) :
    ∃ st' msgs, st.tick_write now = some (st', msgs)
      ∧ st'.inflight.WF ∧ st'.inflight.keysBelow st'.next_write_seqno := by
  unfold StreamState.tick_write
  obtain ⟨st1, msgs1, hrec1, hwf1, hkb1, -, -⟩ :=
    fill_loop_spec now st.congestion.cwndFloor (st.queues.write_stream.length + 1) st h1 h2
  dsimp only
  rw [hrec1]
  dsimp only
  obtain ⟨st2, msgs2, hrec2, hwf2, hkb2, -⟩ :=
    rto_loop_spec now (rtoCount st1.inflight.rtos) st1 hwf1 hkb1
  rw [hrec2]
  exact ⟨st2, msgs1 ++ msgs2, rfl, hwf2, hkb2⟩

/-!  The read half and the full tick preserve well-formedness. -/

theorem tickReadStep_wfstate (now : Nat) (acc : StreamState × Bool × List Message)
    (m : Message) (h1 : acc.1.inflight.WF)
    (h2 : acc.1.inflight.keysBelow acc.1.next_write_seqno) :
    (tickReadStep now acc m).1.inflight.WF
    ∧ (tickReadStep now acc m).1.inflight.keysBelow
        (tickReadStep now acc m).1.next_write_seqno := by
  unfold tickReadStep
  by_cases hg : 1000000 < acc.1.queues.read_stream.length
  · rw [if_pos hg]
    exact ⟨h1, h2⟩
  · rw [if_neg hg]
    cases m with
    | Urel sid p => exact ⟨h1, h2⟩
    | Rel kind sid seq p =>
      cases kind with
      | Data => exact ⟨h1, h2⟩
      | DataAck =>
        dsimp only
        refine ⟨h1.mark_acked_lt now seq, ?_⟩
        intro k hk
        exact h2 k (Inflight.mark_acked_lt_keys now seq k hk)
      | Syn => exact ⟨h1, h2⟩
      | SynAck => exact ⟨h1, h2⟩
      | Rst => exact ⟨h1, h2⟩

theorem foldl_tickReadStep_wfstate (now : Nat) (msgs : List Message)
    (acc : StreamState × Bool × List Message) (h1 : acc.1.inflight.WF)
    (h2 : acc.1.inflight.keysBelow acc.1.next_write_seqno) :
    (msgs.foldl (tickReadStep now) acc).1.inflight.WF
    ∧ (msgs.foldl (tickReadStep now) acc).1.inflight.keysBelow
        (msgs.foldl (tickReadStep now) acc).1.next_write_seqno := by
  induction msgs generalizing acc with
  | nil => exact ⟨h1, h2⟩
  | cons m rest ih =>
    obtain ⟨g1, g2⟩ := tickReadStep_wfstate now acc m h1 h2
    exact ih (tickReadStep now acc m) g1 g2

theorem tick_read_wfstate (st : StreamState) (now : Nat) (h1 : st.inflight.WF)
    (h2 : st.inflight.keysBelow st.next_write_seqno) :
    (st.tick_read now).1.inflight.WF
    ∧ (st.tick_read now).1.inflight.keysBelow (st.tick_read now).1.next_write_seqno := by
  unfold StreamState.tick_read
  dsimp only
  obtain ⟨g1, g2⟩ := foldl_tickReadStep_wfstate now st.incoming_queue
    ({ st with incoming_queue := [] }, false, []) h1 h2
  set looped := st.incoming_queue.foldl (tickReadStep now)
    ({ st with incoming_queue := [] }, false, ([] : List Message)) with hlooped
  obtain ⟨f1, f2, f3, f4, f5, f6⟩ := foldl_drainStep_frame
    looped.1.reorderer.take.1 { looped.1 with reorderer := looped.1.reorderer.take.2 }
  by_cases hga : looped.2.1
  · rw [if_pos hga]
    dsimp only
    constructor
    · rw [f1]
      exact g1
    · rw [f1, f5]
      exact g2
  · rw [if_neg hga]
    dsimp only
    constructor
    · rw [f1]
      exact g1
    · rw [f1, f5]
      exact g2

theorem reachable_wfstate {st : StreamState} (hr : st.Reachable) :
    st.inflight.WF ∧ st.inflight.keysBelow st.next_write_seqno := by
  induction hr with
  | pending stream_id additional_data =>
    refine ⟨Inflight.wf_new, ?_⟩
    intro k hk
    simp [StreamState.new_pending, StreamState.new_in_phase, Inflight.new] at hk
  | established stream_id additional_data =>
    refine ⟨Inflight.wf_new, ?_⟩
    intro k hk
    simp [StreamState.new_established, StreamState.new_in_phase, Inflight.new] at hk
  | inject msg hprev ih =>
    exact ih
  | tick now hprev htick ih =>
    obtain ⟨h1, h2⟩ := ih
    rename_i stp stq msgs tnext
    unfold StreamState.tick at htick
    cases hphase : stp.phase with
    | Pending =>
      rw [hphase] at htick
      dsimp only at htick
      obtain rfl : _ = stq := congrArg (fun r => r.1) (Option.some.inj htick)
      exact ⟨h1, h2⟩
    | SynSent nr =>
      rw [hphase] at htick
      dsimp only at htick
      by_cases hs : stp.incoming_queue.any isSynAck
      · rw [if_pos hs] at htick
        obtain rfl : _ = stq := congrArg (fun r => r.1) (Option.some.inj htick)
        exact ⟨h1, h2⟩
      · rw [if_neg hs] at htick
        by_cases hn : nr ≤ now
        · rw [if_pos hn] at htick
          obtain rfl : _ = stq := congrArg (fun r => r.1) (Option.some.inj htick)
          exact ⟨h1, h2⟩
        · rw [if_neg hn] at htick
          obtain rfl : _ = stq := congrArg (fun r => r.1) (Option.some.inj htick)
          exact ⟨h1, h2⟩
    | Established =>
      rw [hphase] at htick
      dsimp only at htick
      obtain ⟨r1, r2⟩ := tick_read_wfstate stp now h1 h2
      obtain ⟨st2, msgs2, hw, hwf2, hkb2⟩ := tick_write_spec (stp.tick_read now).1 now r1 r2
      rw [hw] at htick
      dsimp only at htick
      by_cases hcl : st2.queues.closed
      · rw [if_pos hcl] at htick
        obtain rfl : _ = stq := congrArg (fun r => r.1) (Option.some.inj htick)
        exact ⟨hwf2, hkb2⟩
      · rw [if_neg hcl] at htick
        obtain rfl : _ = stq := congrArg (fun r => r.1) (Option.some.inj htick)
        exact ⟨hwf2, hkb2⟩
    | Closed =>
      rw [hphase] at htick
      dsimp only at htick
      obtain rfl : _ = stq := congrArg (fun r => r.1) (Option.some.inj htick)
      exact ⟨h1, h2⟩

/-!  Cubic congestion-control lemmas. -/

theorem cube_mono {x y : ℝ} (h : x ≤ y) : x ^ (3 : ℕ) ≤ y ^ (3 : ℕ) := by
  nlinarith [sq_nonneg (x + y), sq_nonneg x, sq_nonneg y, sq_nonneg (x - y)]

theorem Cubic.curve_mono {c : Cubic} (hc : 0 ≤ c.cee) {e e' : ℝ} (h : e ≤ e') :
    c.curve e ≤ c.curve e' := by
  unfold Cubic.curve
  have h3 := cube_mono (sub_le_sub_right h c.kay)
  have h4 := mul_le_mul_of_nonneg_left h3 hc
  linarith

theorem Cubic.curve_eq_of_fields {c c' : Cubic} (hb : c'.beta = c.beta)
    (hc : c'.cee = c.cee) (hw : c'.cwnd_max = c.cwnd_max) (x : ℝ) :
    c'.curve x = c.curve x := by
  unfold Cubic.curve Cubic.kay
  rw [hb, hc, hw]

theorem Cubic.kay_nonneg {c : Cubic} (hb : c.beta ≤ 1) (hc : 0 < c.cee)
    (hw : 0 ≤ c.cwnd_max) : 0 ≤ c.kay := by
  unfold Cubic.kay
  refine Real.rpow_nonneg ?_ _
  have h1 : (0 : ℝ) ≤ 1 - c.beta := by linarith
  exact div_nonneg (mul_nonneg hw h1) hc.le

theorem Cubic.recalculate_fields (c : Cubic) (now : ℝ) :
    (c.recalculate_cwnd now).beta = c.beta ∧ (c.recalculate_cwnd now).cee = c.cee
    ∧ (c.recalculate_cwnd now).last_loss = c.last_loss
    ∧ (c.recalculate_cwnd now).cwnd_max = c.cwnd_max := by
  unfold Cubic.recalculate_cwnd
  cases hll : c.last_loss with
  | none => exact ⟨rfl, rfl, hll, rfl⟩
  | some ll => exact ⟨rfl, rfl, rfl, rfl⟩

theorem Cubic.mark_ack_fields (c : Cubic) (now : ℝ) :
    (c.mark_ack now).beta = c.beta ∧ (c.mark_ack now).cee = c.cee
    ∧ (c.mark_ack now).last_loss = c.last_loss
    ∧ (c.mark_ack now).cwnd_max = c.cwnd_max := by
  unfold Cubic.mark_ack
  dsimp only
  exact Cubic.recalculate_fields { c with cwnd := c.cwnd + min 1 (32 / c.cwnd) } now

theorem Cubic.mark_loss_fields (c : Cubic) (now : ℝ) :
    (c.mark_loss now).beta = c.beta ∧ (c.mark_loss now).cee = c.cee
    ∧ (c.mark_loss now).last_loss = some now
    ∧ (c.mark_loss now).cwnd_max = c.cwnd := by
  unfold Cubic.mark_loss
  exact Cubic.recalculate_fields
    { c with last_loss := some now, cwnd_max := c.cwnd } now

theorem Cubic.mark_ack_cwnd_none {c : Cubic} (now : ℝ) (h : c.last_loss = none) :
    (c.mark_ack now).cwnd = c.cwnd + min 1 (32 / c.cwnd) := by
  unfold Cubic.mark_ack Cubic.recalculate_cwnd
  dsimp only
  rw [h]
  exact min_self _

theorem Cubic.mark_ack_cwnd_some {c : Cubic} {ll : ℝ} (now : ℝ)
    (h : c.last_loss = some ll) :
    (c.mark_ack now).cwnd
      = min (max (c.curve (now - ll)) 1) (c.cwnd + min 1 (32 / c.cwnd)) := by
  unfold Cubic.mark_ack Cubic.recalculate_cwnd
  dsimp only
  rw [h]
  rfl

theorem Cubic.mark_loss_cwnd (c : Cubic) (now : ℝ) :
    (c.mark_loss now).cwnd
      = max (Cubic.curve { c with last_loss := some now, cwnd_max := c.cwnd }
          (now - now)) 1 :=
  rfl

theorem Cubic.reachable_fields {beta cee : ℝ} {c : Cubic} {t : ℝ}
    (h : Cubic.Reachable beta cee c t) : c.beta = beta ∧ c.cee = cee := by
  induction h with
  | init t => exact ⟨rfl, rfl⟩
  | wait t' hprev hle ih => exact ih
  | ack t' hprev hle ih =>
    obtain ⟨h1, h2⟩ := ih
    obtain ⟨f1, f2, -, -⟩ := Cubic.mark_ack_fields _ t'
    exact ⟨f1.trans h1, f2.trans h2⟩
  | loss t' hprev hle ih =>
    obtain ⟨h1, h2⟩ := ih
    obtain ⟨f1, f2, -, -⟩ := Cubic.mark_loss_fields _ t'
    exact ⟨f1.trans h1, f2.trans h2⟩

theorem cubic_reachable_inv {beta cee : ℝ} (hc : 0 < cee) :
    ∀ {c : Cubic} {t : ℝ}, Cubic.Reachable beta cee c t → Cubic.Inv c t := by
  intro c t h
  induction h with
  | init t =>
    refine ⟨le_refl 1, fun ll hll => ?_⟩
    simp [Cubic.new] at hll
  | wait t' hprev hle ih =>
    rename_i c₀ t₀
    obtain ⟨hf1, hf2⟩ := Cubic.reachable_fields hprev
    obtain ⟨h1, h2⟩ := ih
    refine ⟨h1, fun ll hll => ?_⟩
    have hcee : (0 : ℝ) ≤ c₀.cee := by
      rw [hf2]
      exact hc.le
    have hcm := Cubic.curve_mono hcee (sub_le_sub_right hle ll)
    exact le_trans (h2 ll hll) (max_le_max hcm (le_refl 1))
  | ack t' hprev hle ih =>
    rename_i c₀ t₀
    obtain ⟨h1, h2⟩ := ih
    have hcw0 : (0 : ℝ) < c₀.cwnd := lt_of_lt_of_le one_pos h1
    have hminnn : (0 : ℝ) ≤ min 1 (32 / c₀.cwnd) :=
      le_min one_pos.le (div_nonneg (by norm_num) hcw0.le)
    obtain ⟨a1, a2, a3, a4⟩ := Cubic.mark_ack_fields c₀ t'
    cases hll₀ : c₀.last_loss with
    | none =>
      refine ⟨?_, fun ll hll => ?_⟩
      · rw [Cubic.mark_ack_cwnd_none t' hll₀]
        linarith
      · rw [a3, hll₀] at hll
        cases hll
    | some ll₀ =>
      refine ⟨?_, fun ll hll => ?_⟩
      · rw [Cubic.mark_ack_cwnd_some t' hll₀]
        refine le_min (le_max_right _ _) (by linarith)
      · rw [a3, hll₀] at hll
        obtain rfl := Option.some.inj hll
        have hcurve : (c₀.mark_ack t').curve (t' - ll₀) = c₀.curve (t' - ll₀) :=
          Cubic.curve_eq_of_fields a1 a2 a4 _
        rw [Cubic.mark_ack_cwnd_some t' hll₀, hcurve]
        exact min_le_left _ _
  | loss t' hprev hle ih =>
    rename_i c₀ t₀
    obtain ⟨h1, h2⟩ := ih
    obtain ⟨l1, l2, l3, l4⟩ := Cubic.mark_loss_fields c₀ t'
    refine ⟨?_, fun ll hll => ?_⟩
    · rw [Cubic.mark_loss_cwnd]
      exact le_max_right _ _
    · rw [l3] at hll
      obtain rfl := Option.some.inj hll
      have hcv : (c₀.mark_loss t').curve (t' - t')
          = Cubic.curve { c₀ with last_loss := some t', cwnd_max := c₀.cwnd }
              (t' - t') := by
        refine Cubic.curve_eq_of_fields ?_ ?_ ?_ _
        · exact l1
        · exact l2
        · exact l4
      rw [hcv]
      exact le_of_eq (Cubic.mark_loss_cwnd c₀ t')

/-!  The claims. -/

/-- C1: injecting `Data` seqnos 2, 0, 1 into an Established stream and
ticking delivers exactly the bytes of "abc" to `read_stream` in seqno order,
but the emitted cumulative `DataAck` carries seqno 2 (`read_until`, the
highest delivered seqno), not 3: under the code's own cumulative convention
(`mark_acked_lt` acks strictly below the carried seqno) packet 2 is never
acknowledged, contrary to the claim. -/
theorem c1_out_of_order_ack_eval :
    ((StreamState.tick
        { phase := Phase.Established, stream_id := 0, additional_data := []
          incoming_queue := [Message.Rel .Data 0 2 [99], Message.Rel .Data 0 0 [97],
                             Message.Rel .Data 0 1 [98]]
          queues := StreamQueues.default
          read_until := 0, reorderer := Reorderer.default, inflight := Inflight.new
          next_write_seqno := 0, congestion := Highspeed.new 1 } 0).map
      (fun r => (r.1.queues.read_stream, r.2.1)))
    = some ([97, 98, 99], [Message.Rel .DataAck 0 2 emptySackPayload]) := by
  decide

/-- C2: a server-accepted stream (`new_established`) delivers injected data to
`read_stream` while `connected` is still false: nothing on the established
path ever sets the flag, so `wait_connected` on such a stream never
completes, contrary to the claim. -/
theorem c2_established_never_connected_eval :
    (((StreamState.new_established 7 []).inject_incoming
        (Message.Rel .Data 0 0 [97])).tick 0).map
      (fun r => (r.1.queues.read_stream, r.1.queues.connected))
    = some ([97], false) := by
  decide

/-- C3: `Stream::send_urel` and `Stream::recv_urel` are `future::pending()`
stubs: even on a stream whose `closed` flag is set (where the claim requires
`recv_urel` to complete with an error), both futures poll pending forever,
and nothing is ever appended anywhere. -/
theorem c3_urel_stubs_never_complete :
    recvUrelPoll { read_stream := [], write_stream := [],
                   connected := false, closed := true } = Poll.pending
    ∧ sendUrelPoll { read_stream := [], write_stream := [],
                     connected := false, closed := true } [1, 2] = Poll.pending :=
  ⟨rfl, rfl⟩

/-- C4: with `closed = true`, `Stream::poll_write` still reports ready and
buffers the bytes (its wait predicate never consults `closed`), and
`Stream::poll_read` on a closed stream with buffered data returns that data
rather than 0 or an error. -/
theorem c4_write_after_close_buffers :
    pollWrite { read_stream := [], write_stream := [],
                connected := false, closed := true } [120]
      = (Poll.ready 1,
         { read_stream := [], write_stream := [120], connected := false, closed := true })
    ∧ pollRead { read_stream := [97], write_stream := [],
                 connected := false, closed := true } 10
      = (Poll.ready [97],
         { read_stream := [], write_stream := [], connected := false, closed := true }) := by
  constructor
  · rfl
  · rfl

/-- C5 counterexample: with 100,001 bytes queued (above the claimed 100,000
threshold, where the claim requires `poll_write` to return `Pending`), the
code reports ready and accepts the bytes, because its gate is 1,000,000. -/
theorem c5_gate_counterexample :
    (pollWrite { read_stream := [], write_stream := List.replicate 100001 0,
                 connected := false, closed := false } [7]).1 = Poll.ready 1 := by
  simp only [pollWrite, writeReady, List.length_replicate]
  norm_num

/-- C5 (amended): handle writes are gated at 1,000,000 bytes, not 100,000:
`poll_write` suspends without appending exactly when `write_stream` holds
more than 1,000,000 bytes, and otherwise appends the whole buffer and
reports its length. -/
theorem c5_write_gate_is_one_megabyte (q : StreamQueues) (buf : List Nat) :
    (1000000 < q.write_stream.length → pollWrite q buf = (Poll.pending, q))
    ∧ (q.write_stream.length ≤ 1000000 →
        pollWrite q buf
          = (Poll.ready buf.length, { q with write_stream := q.write_stream ++ buf })) := by
  constructor
  · intro h
    have h' : ¬ q.write_stream.length ≤ 1000000 := by omega
    simp [pollWrite, writeReady, h']
  · intro h
    simp [pollWrite, writeReady, h]

/-- C5 witness: the empty queue is below the gate and a one-byte write goes
through. -/
theorem c5_write_gate_is_one_megabyte_witness :
    (StreamQueues.default).write_stream.length ≤ 1000000
    ∧ pollWrite StreamQueues.default [5]
        = (Poll.ready 1, { StreamQueues.default with write_stream := [] ++ [5] }) :=
  ⟨by decide, (c5_write_gate_is_one_megabyte StreamQueues.default [5]).2 (by decide)⟩

/-- The length of the overfull receive buffer. -/
theorem megabyteOverflowBuffer_length : megabyteOverflowBuffer.length = 1000001 := by
  simp only [megabyteOverflowBuffer, List.length_replicate]

/-- The overfull receive buffer trips the 1 MB guard. -/
theorem megabyteOverflowBuffer_overfull : 1000000 < megabyteOverflowBuffer.length := by
  rw [megabyteOverflowBuffer_length]
  norm_num

/-- The empty reorderer drains nothing. -/
theorem reordererDefault_take : Reorderer.default.take = ([], Reorderer.default) := rfl

/-- C6 counterexample: in Established phase with 1,000,001 bytes awaiting the
reader, an injected `Rst` is skipped by the 1 MB guard, so the read half of
the tick leaves the phase Established, where the claim requires the
transition to Closed. -/
theorem c6_rst_dropped_counterexample :
    ((StreamState.tick_read
        { phase := Phase.Established, stream_id := 0, additional_data := []
          incoming_queue := [Message.Rel .Rst 0 0 []]
          queues := { read_stream := megabyteOverflowBuffer, write_stream := []
                      connected := true, closed := false }
          read_until := 0, reorderer := Reorderer.default, inflight := Inflight.new
          next_write_seqno := 0, congestion := Highspeed.new 1 } 0)).1.phase
      = Phase.Established := by
  simp [StreamState.tick_read, tickReadStep, reordererDefault_take, drainStep,
    megabyteOverflowBuffer_overfull]

/-- C6 (amended): while more than 1 MB of received bytes awaits the reader,
the read half of the tick skips every newly arrived message outright, not
just `Data`: draining the incoming queue has no effect at all (acks do not
shrink the inflight or drive the congestion controller, a duplicate `Syn`
elicits no `SynAck`, and an `Rst` does not close the stream), and no message
is emitted. -/
theorem c6_overfull_read_skips_all (st : StreamState) (now : Nat)
    (h : 1000000 < st.queues.read_stream.length) :
    st.tick_read now = ({ st with incoming_queue := [] }).tick_read now
    ∧ (st.tick_read now).2 = []
    ∧ (st.tick_read now).1.inflight = st.inflight
    ∧ (st.tick_read now).1.congestion = st.congestion
    ∧ (st.tick_read now).1.phase = st.phase := by
  have hfold :
      ∀ q : List Message,
        q.foldl (tickReadStep now) ({ st with incoming_queue := [] }, false, [])
          = ({ st with incoming_queue := [] }, false, ([] : List Message)) := by
    intro q
    exact foldl_tickReadStep_skip now q _ (by simpa using h)
  have hframe := foldl_drainStep_frame
    (({ st with incoming_queue := [] } : StreamState).reorderer.take).1
    { ({ st with incoming_queue := [] } : StreamState) with
        reorderer := (({ st with incoming_queue := [] } : StreamState).reorderer.take).2 }
  refine ⟨?_, ?_, ?_, ?_, ?_⟩ <;>
    simp [StreamState.tick_read, hfold, hframe.1, hframe.2.1, hframe.2.2.1]

/-- C6 witness: a concrete overfull state (the counterexample state) satisfies
the hypothesis, and the amended conclusions evaluate as stated. -/
theorem c6_overfull_read_skips_all_witness :
    1000000 <
      (StreamState.mk Phase.Established 0 [] [Message.Rel .Rst 0 0 []]
        { read_stream := megabyteOverflowBuffer, write_stream := []
          connected := true, closed := false }
        0 Reorderer.default Inflight.new 0 (Highspeed.new 1)).queues.read_stream.length
    ∧ ((StreamState.mk Phase.Established 0 [] [Message.Rel .Rst 0 0 []]
        { read_stream := megabyteOverflowBuffer, write_stream := []
          connected := true, closed := false }
        0 Reorderer.default Inflight.new 0 (Highspeed.new 1)).tick_read 0).1.phase
      = (StreamState.mk Phase.Established 0 [] [Message.Rel .Rst 0 0 []]
        { read_stream := megabyteOverflowBuffer, write_stream := []
          connected := true, closed := false }
        0 Reorderer.default Inflight.new 0 (Highspeed.new 1)).phase :=
  ⟨megabyteOverflowBuffer_overfull,
   (c6_overfull_read_skips_all _ 0 megabyteOverflowBuffer_overfull).2.2.2.2⟩

/-- C7: the RTO-index invariant.  `Inflight.WF` states that the `rtos` map
holds exactly the pairs `(entry.retrans_time, seqno)` of live segments whose
`known_lost` flag is false — soundness, completeness, no empty buckets, and
no duplicated membership — and it holds for the fresh tracker, is preserved
by every operation (`insert` when it succeeds, `mark_acked`,
`mark_acked_lt`, `mark_lost`, `retransmit`), and under it `first_rto` is
`none` exactly when no live non-lost entry exists and otherwise returns a
live non-lost seqno carrying the earliest `retrans_time` of the index. -/
theorem c7_rto_index_invariant (fl : Inflight) (now seqno : Nat) (msg : Message)
    (h : fl.WF) :
    Inflight.new.WF
    ∧ (∀ fl', fl.insert now msg = some fl' → fl'.WF)
    ∧ (fl.mark_acked now seqno).2.WF
    ∧ (fl.mark_acked_lt now seqno).2.WF
    ∧ (fl.mark_lost seqno).2.WF
    ∧ (∀ m fl', fl.retransmit now seqno = some (m, fl') → fl'.WF)
    ∧ (fl.first_rto = none
        ↔ ∀ s e, alookup fl.segments s = some e → e.known_lost = true)
    ∧ (∀ s t, fl.first_rto = some (s, t) →
        ∃ e, alookup fl.segments s = some e ∧ e.known_lost = false ∧ e.retrans_time = t
          ∧ ∀ s' e', alookup fl.segments s' = some e' → e'.known_lost = false →
              t ≤ e'.retrans_time) :=
  ⟨Inflight.wf_new,
   fun _ h' => h.insert h',
   h.mark_acked now seqno,
   h.mark_acked_lt now seqno,
   h.mark_lost seqno,
   fun _ _ h' => h.retransmit h',
   Inflight.first_rto_none_iff h,
   fun _ _ hf => Inflight.first_rto_some h hf⟩

/-- C7 witness: the invariant theorem applied to the fresh tracker. -/
theorem c7_rto_index_invariant_witness :
    Inflight.new.WF
    ∧ (∀ fl', Inflight.new.insert 0 (Message.Rel .Data 0 0 [97]) = some fl' → fl'.WF)
    ∧ (Inflight.new.mark_acked 0 0).2.WF
    ∧ (Inflight.new.mark_acked_lt 0 0).2.WF
    ∧ (Inflight.new.mark_lost 0).2.WF
    ∧ (∀ m fl', Inflight.new.retransmit 0 0 = some (m, fl') → fl'.WF)
    ∧ (Inflight.new.first_rto = none
        ↔ ∀ s e, alookup Inflight.new.segments s = some e → e.known_lost = true)
    ∧ (∀ s t, Inflight.new.first_rto = some (s, t) →
        ∃ e, alookup Inflight.new.segments s = some e ∧ e.known_lost = false
          ∧ e.retrans_time = t
          ∧ ∀ s' e', alookup Inflight.new.segments s' = some e' →
              e'.known_lost = false → t ≤ e'.retrans_time) :=
  c7_rto_index_invariant Inflight.new 0 0 (Message.Rel .Data 0 0 [97]) Inflight.wf_new

/-- C8: in every reachable stream state, every seqno tracked by the inflight
is strictly below `next_write_seqno`; the window-filling loop of `tick_write`
therefore stamps its inserts with the consecutive seqnos
`next_write_seqno, next_write_seqno + 1, …` (each strictly greater than every
previously inserted seqno), bumps `next_write_seqno` accordingly, and the
duplicate-key assertion in `Inflight::insert` (modelled by the `none` result)
never fires: `tick_write` always returns a result. -/
theorem c8_inserted_seqnos_monotone (st : StreamState) (hr : st.Reachable) (now : Nat) :
    (∀ k ∈ st.inflight.segments.map Prod.fst, k < st.next_write_seqno)
    ∧ (∃ st1 msgs1,
        StreamState.fill_loop now st.congestion.cwndFloor
          (st.queues.write_stream.length + 1) st = some (st1, msgs1)
        ∧ msgs1.map Message.seqno = List.range' st.next_write_seqno msgs1.length
        ∧ st1.next_write_seqno = st.next_write_seqno + msgs1.length)
    ∧ (∃ st' msgs, st.tick_write now = some (st', msgs)) := by
  obtain ⟨h1, h2⟩ := reachable_wfstate hr
  refine ⟨h2, ?_, ?_⟩
  · obtain ⟨st1, msgs1, hrec, -, -, hmap, hnext⟩ :=
      fill_loop_spec now st.congestion.cwndFloor
        (st.queues.write_stream.length + 1) st h1 h2
    exact ⟨st1, msgs1, hrec, hmap, hnext⟩
  · obtain ⟨st', msgs, hw, -, -⟩ := tick_write_spec st now h1 h2
    exact ⟨st', msgs, hw⟩

/-- C8 witness: the monotonicity theorem applied to a freshly accepted
stream. -/
theorem c8_inserted_seqnos_monotone_witness :
    (∀ k ∈ (StreamState.new_established 3 []).inflight.segments.map Prod.fst,
        k < (StreamState.new_established 3 []).next_write_seqno)
    ∧ (∃ st1 msgs1,
        StreamState.fill_loop 0 (StreamState.new_established 3 []).congestion.cwndFloor
          ((StreamState.new_established 3 []).queues.write_stream.length + 1)
          (StreamState.new_established 3 []) = some (st1, msgs1)
        ∧ msgs1.map Message.seqno
            = List.range' (StreamState.new_established 3 []).next_write_seqno msgs1.length
        ∧ st1.next_write_seqno
            = (StreamState.new_established 3 []).next_write_seqno + msgs1.length)
    ∧ (∃ st' msgs, (StreamState.new_established 3 []).tick_write 0 = some (st', msgs)) :=
  c8_inserted_seqnos_monotone (StreamState.new_established 3 [])
    (StreamState.Reachable.established 3 []) 0

/-- C9: for the CUBIC-style controller with parameters `0 < beta < 1` and
`cee > 0`, in every reachable state (operations issued at non-decreasing
wall-clock times) the window is at least 1, a `mark_ack` call never decreases
it, and a single `mark_loss` call never increases it, with both results again
at least 1. -/
theorem c9_cubic_monotonicity (beta cee : ℝ) (c : Cubic) (t now : ℝ)
    (hb0 : 0 < beta) (hb1 : beta < 1) (hc : 0 < cee)
    (hr : Cubic.Reachable beta cee c t) (hle : t ≤ now) :
    1 ≤ c.cwnd
    ∧ c.cwnd ≤ (c.mark_ack now).cwnd
    ∧ (c.mark_loss now).cwnd ≤ c.cwnd
    ∧ 1 ≤ (c.mark_ack now).cwnd
    ∧ 1 ≤ (c.mark_loss now).cwnd := by
  have hrnow : Cubic.Reachable beta cee c now := Cubic.Reachable.wait now hr hle
  obtain ⟨hf1, hf2⟩ := Cubic.reachable_fields hr
  obtain ⟨h1, h2⟩ := cubic_reachable_inv hc hrnow
  have hackinv := cubic_reachable_inv hc (Cubic.Reachable.ack now hr hle)
  have hlossinv := cubic_reachable_inv hc (Cubic.Reachable.loss now hr hle)
  have hcw0 : (0 : ℝ) < c.cwnd := lt_of_lt_of_le one_pos h1
  have hminnn : (0 : ℝ) ≤ min 1 (32 / c.cwnd) :=
    le_min one_pos.le (div_nonneg (by norm_num) hcw0.le)
  refine ⟨h1, ?_, ?_, hackinv.1, hlossinv.1⟩
  · cases hll : c.last_loss with
    | none =>
      rw [Cubic.mark_ack_cwnd_none now hll]
      linarith
    | some ll =>
      rw [Cubic.mark_ack_cwnd_some now hll]
      exact le_min (h2 ll hll) (by linarith)
  · rw [Cubic.mark_loss_cwnd, sub_self]
    set cL : Cubic := { c with last_loss := some now, cwnd_max := c.cwnd } with hcL
    have hkay : 0 ≤ cL.kay := by
      refine Cubic.kay_nonneg ?_ ?_ ?_
      · show c.beta ≤ 1
        rw [hf1]
        exact hb1.le
      · show 0 < c.cee
        rw [hf2]
        exact hc
      · show 0 ≤ c.cwnd
        exact hcw0.le
    have hcee : (0 : ℝ) ≤ c.cee := by
      rw [hf2]
      exact hc.le
    have hcurve0 : cL.curve 0 = c.cwnd - c.cee * cL.kay ^ (3 : ℕ) := by
      unfold Cubic.curve
      rw [zero_sub, Odd.neg_pow (⟨1, by norm_num⟩ : Odd 3)]
      show c.cee * -(cL.kay ^ (3 : ℕ)) + c.cwnd = _
      ring
    have hterm : 0 ≤ c.cee * cL.kay ^ (3 : ℕ) :=
      mul_nonneg hcee (pow_nonneg hkay 3)
    refine max_le ?_ h1
    rw [hcurve0]
    linarith

/-- C9 witness: the monotonicity theorem applied to the freshly constructed
controller with the parameters of the repository (`Cubic::new(0.7, 0.4)`). -/
theorem c9_cubic_monotonicity_witness :
    1 ≤ (Cubic.new (7 / 10) (2 / 5)).cwnd
    ∧ (Cubic.new (7 / 10) (2 / 5)).cwnd ≤ ((Cubic.new (7 / 10) (2 / 5)).mark_ack 0).cwnd
    ∧ ((Cubic.new (7 / 10) (2 / 5)).mark_loss 0).cwnd ≤ (Cubic.new (7 / 10) (2 / 5)).cwnd
    ∧ 1 ≤ ((Cubic.new (7 / 10) (2 / 5)).mark_ack 0).cwnd
    ∧ 1 ≤ ((Cubic.new (7 / 10) (2 / 5)).mark_loss 0).cwnd :=
  c9_cubic_monotonicity (7 / 10) (2 / 5) (Cubic.new (7 / 10) (2 / 5)) 0 0
    (by norm_num) (by norm_num) (by norm_num)
    (Cubic.Reachable.init 0) (le_refl 0)

/-- C10: a tick in the `SynSent` phase drains the entire incoming queue and
uses it only to detect a `SynAck`: the reorderer, the inflight, `read_until`,
`next_write_seqno` and both byte queues are untouched (so a `Data` arriving
alongside the `SynAck` is lost rather than buffered, and a `DataAck` acks
nothing), the phase never becomes `Closed` (an `Rst` during the handshake is
ignored), and when no `SynAck` is present the queues are completely unchanged
and the phase stays `SynSent`. -/
theorem c10_synsent_discards_everything (st : StreamState) (now nr : Nat)
    (h : st.phase = Phase.SynSent nr) :
    ∃ st' msgs t, st.tick now = some (st', msgs, t)
    ∧ st'.incoming_queue = []
    ∧ st'.reorderer = st.reorderer
    ∧ st'.inflight = st.inflight
    ∧ st'.read_until = st.read_until
    ∧ st'.next_write_seqno = st.next_write_seqno
    ∧ st'.queues.read_stream = st.queues.read_stream
    ∧ st'.queues.write_stream = st.queues.write_stream
    ∧ st'.queues.closed = st.queues.closed
    ∧ st'.phase ≠ Phase.Closed
    ∧ (st.incoming_queue.any isSynAck = true →
        st'.phase = Phase.Established
        ∧ st'.queues = { st.queues with connected := true } ∧ msgs = [])
    ∧ (st.incoming_queue.any isSynAck = false →
        st'.queues = st.queues ∧ ∃ nr', st'.phase = Phase.SynSent nr') := by
  cases hs : st.incoming_queue.any isSynAck with
  | true =>
    have htick : st.tick now
        = some ({ st with incoming_queue := [], phase := Phase.Established
                          queues := { st.queues with connected := true } }, [], now) := by
      unfold StreamState.tick
      rw [h]
      simp [hs]
    refine ⟨_, _, _, htick, ?_⟩
    simp [hs]
  | false =>
    by_cases ht : nr ≤ now
    · have htick : st.tick now
          = some ({ st with incoming_queue := []
                            phase := Phase.SynSent (now + 1000000000) },
              [Message.Rel .Syn st.stream_id 0 st.additional_data],
              now + 1000000000) := by
        unfold StreamState.tick
        rw [h]
        simp [hs, ht]
      refine ⟨_, _, _, htick, ?_⟩
      simp [hs, h]
    · have htick : st.tick now
          = some ({ st with incoming_queue := [] }, [], nr) := by
        unfold StreamState.tick
        rw [h]
        simp [hs, ht]
      refine ⟨_, _, _, htick, ?_⟩
      simp [hs, h]

/-- C10 witness: a `SynSent` stream with an `Rst` and a `Data` queued drains
both without effect. -/
theorem c10_synsent_discards_everything_witness :
    (StreamState.mk (Phase.SynSent 5) 1 []
        [Message.Rel .Rst 1 0 [], Message.Rel .Data 1 0 [97]]
        StreamQueues.default 0 Reorderer.default Inflight.new 0
        (Highspeed.new 1)).phase = Phase.SynSent 5
    ∧ (∃ st' msgs t,
        (StreamState.mk (Phase.SynSent 5) 1 []
          [Message.Rel .Rst 1 0 [], Message.Rel .Data 1 0 [97]]
          StreamQueues.default 0 Reorderer.default Inflight.new 0
          (Highspeed.new 1)).tick 0 = some (st', msgs, t)
        ∧ st'.incoming_queue = []
        ∧ st'.reorderer = Reorderer.default
        ∧ st'.inflight = Inflight.new
        ∧ st'.read_until = 0
        ∧ st'.next_write_seqno = 0
        ∧ st'.queues.read_stream = []
        ∧ st'.queues.write_stream = []
        ∧ st'.queues.closed = false
        ∧ st'.phase ≠ Phase.Closed) := by
  have happ := c10_synsent_discards_everything
    (StreamState.mk (Phase.SynSent 5) 1 []
      [Message.Rel .Rst 1 0 [], Message.Rel .Data 1 0 [97]]
      StreamQueues.default 0 Reorderer.default Inflight.new 0
      (Highspeed.new 1)) 0 5 rfl
  obtain ⟨st', msgs, t, h1, h2, h3, h4, h5, h6, h7, h8, h9, h10, -⟩ := happ
  exact ⟨rfl, st', msgs, t, h1, h2, h3, h4, h5, h6, h7, h8, h9, h10⟩

end Sosistab2
